import Mathlib

/-
Verification of the writeback pass (`src/librustc_typeck/check/writeback.rs`).

The pass walks a fully type-checked function body and transfers each category
of per-node fact from the mutable per-function scratch tables (`fcx.tables`)
into the final tables (`wbcx.tables`), replacing every inference variable by
its resolved value (or by a sentinel on failure).  The development below is a
shallow embedding of that file: each Rust function is translated into a Lean
function over explicit state, and the claims about the pass are proved as
theorems over those functions.  External collaborators of the pass (the
inference context's query functions, the scalar test on types, the
by-value test on operators) are not part of the source file; those are
modelled from the specification and marked as such.
-/

namespace Writeback

/-- Association-list lookup, modelling the lookup operation of the map types
(`NodeMap`, `FnvHashMap`, `DefIdMap`) used by the typeck tables. -/
def lookupA {κ α : Type} [DecidableEq κ] : List (κ × α) → κ → Option α
  | [], _ => none
  | (k, v) :: rest, k2 => if k = k2 then some v else lookupA rest k2

/-- Association-list removal, modelling `Map::remove` (the returned value is
obtained with `lookupA` first). -/
def removeA {κ α : Type} [DecidableEq κ] : List (κ × α) → κ → List (κ × α)
  | [], _ => []
  | (k, v) :: rest, k2 => if k = k2 then removeA rest k2 else (k, v) :: removeA rest k2

/-- Association-list insertion, modelling `Map::insert` (overwrites any
previous binding of the key). -/
def insertA {κ α : Type} [DecidableEq κ] (l : List (κ × α)) (k : κ) (v : α) :
    List (κ × α) :=
  (k, v) :: removeA l k

/-! Regions and types.  These mirror `ty::Region`, `ty::BoundRegion` and the
fragment of `ty::TypeVariants` that the pass inspects: scalar (primitive)
types, the error sentinel, inference variables, and compound types carrying
regions and subtypes. -/

inductive BoundRegion where
  | brAnon (idx : Nat)
  | brNamed (defId : Nat) (name : String)
  deriving DecidableEq

inductive Region where
  | reStatic
  | reEmpty
  | reEarlyBound (index : Nat) (name : String)
  | reFree (scopeId : Nat) (br : BoundRegion)
  | reLateBound (depth : Nat) (br : BoundRegion)
  | reScope (codeExtent : Nat)
  | reSkolemized (idx : Nat) (br : BoundRegion)
  | reVar (vid : Nat)
  | reErased
  deriving DecidableEq

inductive Ty where
  | tyBool
  | tyChar
  | tyInt
  | tyUint
  | tyFloat
  | tyErr
  | tyInfer (vid : Nat)
  | tyRef (r : Region) (t : Ty)
  | tyTuple2 (a b : Ty)
  | tyAdt (name : String)
  deriving DecidableEq

/-- Region counterpart of `needs_infer`: true exactly on region inference
variables. -/
def Region.needsInfer : Region → Bool
  | .reVar _ => true
  | _ => false

/-- The region shape expected by the free-to-bound build of `WritebackCx::new`:
a free region with a named bound region. -/
def Region.isNamedFree : Region → Bool
  | .reFree _ (.brNamed _ _) => true
  | _ => false

/-- Model of `Ty::needs_infer`: the type contains a type or region inference
variable. -/
def Ty.needsInfer : Ty → Bool
  | .tyInfer _ => true
  | .tyRef r t => r.needsInfer || t.needsInfer
  | .tyTuple2 a b => a.needsInfer || b.needsInfer
  | _ => false

/-- Modelled from the spec: `Ty::is_scalar` is not part of the source file;
the spec's glossary defines a scalar/primitive type as a built-in numeric or
boolean type, never operator-overloadable.  Inference variables, references,
tuples and nominal types are not scalar. -/
def Ty.is_scalar : Ty → Bool
  | .tyBool | .tyChar | .tyInt | .tyUint | .tyFloat => true
  | _ => false

/-- A substitution entry (`ty::subst::Kind`): either a type or a region. -/
inductive Kind where
  | kTy (t : Ty)
  | kRegion (r : Region)
  deriving DecidableEq

/-- Model of `Kind::as_region`. -/
def Kind.as_region : Kind → Option Region
  | .kRegion r => some r
  | .kTy _ => none

/-! The inference context.  `fully_resolve` and
`resolve_type_vars_if_possible` live in `rustc::infer`, outside the source
file; they are modelled from the spec's interface section.  The solver state
is a finite map from variable ids to their (fully substituted) solutions. -/

structure InferState where
  tySol : List (Nat × Ty)
  reSol : List (Nat × Region)
  deriving DecidableEq

/-- Modelled from the spec: best-effort substitution on a region position
(part of `resolve_type_vars_if_possible`); an unsolved variable is left in
place. -/
def substRegion (s : InferState) : Region → Region
  | .reVar v =>
    match lookupA s.reSol v with
    | some r => r
    | none => .reVar v
  | r => r

/-- Modelled from the spec: `resolve_type_vars_if_possible`, the solver's
best-effort substitution.  Every inference variable with a recorded solution
is replaced by it; unsolved variables are left in place and the query never
fails. -/
def substTy (s : InferState) : Ty → Ty
  | .tyInfer v =>
    match lookupA s.tySol v with
    | some t => t
    | none => .tyInfer v
  | .tyRef r t => .tyRef (substRegion s r) (substTy s t)
  | .tyTuple2 a b => .tyTuple2 (substTy s a) (substTy s b)
  | t => t

/-- Modelled from the spec: `fullyResolve(value) -> Result<Concrete,
StillAmbiguous>` on a type.  It substitutes solved variables and fails
exactly when an inference variable survives. -/
def fullyResolveTy (s : InferState) (t : Ty) : Option Ty :=
  let t2 := substTy s t
  if t2.needsInfer then none else some t2

/-- Modelled from the spec: the fully-resolve query on a region position. -/
def fullyResolveRegion (s : InferState) (r : Region) : Option Region :=
  let r2 := substRegion s r
  if r2.needsInfer then none else some r2

/-- The best-effort query under the name the source uses at its call sites. -/
def resolve_type_vars_if_possible (s : InferState) (t : Ty) : Ty := substTy s t

/-! The HIR fragment the pass walks: literals, unary operator expressions,
binary operator expressions and compound assignments, each carrying a node
id. -/

inductive UnOp where
  | unNeg
  | unNot
  | unDeref
  deriving DecidableEq

inductive BinOpKind where
  | biAdd | biSub | biMul | biDiv | biRem
  | biAnd | biOr
  | biBitXor | biBitAnd | biBitOr | biShl | biShr
  | biEq | biLt | biLe | biNe | biGe | biGt
  deriving DecidableEq

/-- Modelled from the spec: `hir::BinOp_::is_comparison` is not part of the
source file; the comparison operators are the six relational operators. -/
def BinOpKind.is_comparison : BinOpKind → Bool
  | .biEq | .biLt | .biLe | .biNe | .biGe | .biGt => true
  | _ => false

/-- Modelled from the spec: `hir::BinOp_::is_by_value` — a binary operator
consumes its operands by value exactly when it is not a comparison. -/
def BinOpKind.is_by_value (op : BinOpKind) : Bool := !op.is_comparison

inductive Expr where
  | lit (id : Nat)
  | unary (id : Nat) (op : UnOp) (inner : Expr)
  | binary (id : Nat) (op : BinOpKind) (lhs rhs : Expr)
  | assignOp (id : Nat) (op : BinOpKind) (lhs rhs : Expr)
  deriving DecidableEq

def Expr.id : Expr → Nat
  | .lit i => i
  | .unary i _ _ => i
  | .binary i _ _ _ => i
  | .assignOp i _ _ _ => i

/-- All node ids occurring in an expression tree, in visit order. -/
def Expr.ids : Expr → List Nat
  | .lit i => [i]
  | .unary i _ inner => i :: inner.ids
  | .binary i _ lhs rhs => i :: (lhs.ids ++ rhs.ids)
  | .assignOp i _ lhs rhs => i :: (lhs.ids ++ rhs.ids)

/-! Method-call keys and callees (`ty::MethodCall`, `ty::MethodCallee`). -/

structure MethodCall where
  expr_id : Nat
  autoderef : Nat
  deriving DecidableEq

/-- Model of `MethodCall::expr`: the key for the expression's own (possibly
overloaded-operator) method resolution. -/
def MethodCall.expr (id : Nat) : MethodCall := ⟨id, 0⟩

/-- Modelled from the spec: `MethodCall::autoderef` is not part of the source
file; the spec describes the method-call key as node identity plus an
optional auto-dereference step index, the expression's own key being distinct
from every step key, so step `i` uses index `i + 1`. -/
def MethodCall.autoderefAt (id : Nat) (step : Nat) : MethodCall := ⟨id, step + 1⟩

structure MethodCallee where
  def_id : Nat
  ty : Ty
  substs : List Kind
  deriving DecidableEq

/-! Adjustments (`ty::adjustment`). -/

inductive Mutability where
  | mutMut
  | mutNot
  deriving DecidableEq

inductive AutoBorrow where
  | refBorrow (r : Region) (m : Mutability)
  | rawPtr (m : Mutability)
  deriving DecidableEq

inductive Adjust where
  | neverToAny
  | reifyFnPointer
  | mutToConstPointer
  | closureFnPointer
  | toUnsafeFnPointer
  | derefRef (autoderefs : Nat) (autoref : Option AutoBorrow) (unsize : Bool)
  deriving DecidableEq

structure Adjustment where
  kind : Adjust
  target : Ty
  deriving DecidableEq

/-! The tables.  The scratch tables model the categories of `fcx.tables`
the claims are about; the final tables model the same categories of
`wbcx.tables` plus the tainted flag.  (The closure, cast, lint, upvar,
liberated-signature, struct-update and free-region categories of the source
are outside every claim and are not modelled.) -/

structure ScratchTables where
  node_types : List (Nat × Ty)
  item_substs : List (Nat × List Kind)
  adjustments : List (Nat × Adjustment)
  method_map : List (MethodCall × MethodCallee)
  type_relative_path_defs : List (Nat × Nat)
  deriving DecidableEq

structure FinalTables where
  node_types : List (Nat × Ty)
  item_substs : List (Nat × List Kind)
  adjustments : List (Nat × Adjustment)
  method_map : List (MethodCall × MethodCallee)
  type_relative_path_defs : List (Nat × Nat)
  tainted_by_errors : Bool
  deriving DecidableEq

def FinalTables.empty : FinalTables := ⟨[], [], [], [], [], false⟩

/-- The mutable state threaded through the pass: the scratch tables (still
owned by the inference context), the final tables under construction, the
session error flag (`sess.has_errors()`), and the two diagnostic channels
(ambiguous-type reports carrying the unresolved type, and opaque-type
lifetime errors carrying the node and the offending region). -/
structure WbState where
  scratch : ScratchTables
  tables : FinalTables
  hasErrors : Bool
  ambigDiags : List Ty
  opaqueDiags : List (Nat × Region)
  deriving DecidableEq

/-! The Resolver (the type folding engine, lines 499-533 of the source).
`fold_ty` fully resolves the type, and on failure reports an ambiguous-type
diagnostic — suppressed when the session already has errors — and substitutes
the error type.  `fold_region` fully resolves the region and on failure
substitutes the static region, with no diagnostic.  Emitting a diagnostic
raises the session error count.  Lifting into the global arena (which the
source checks after folding) is the identity in this embedding. -/

/-- The value computed by `Resolver::fold_ty`, independent of the diagnostic
state. -/
def resolverResultTy (s : InferState) (t : Ty) : Ty :=
  match fullyResolveTy s t with
  | some t2 => t2
  | none => Ty.tyErr

/-- The value computed by `Resolver::fold_region`, independent of the
diagnostic state. -/
def resolverResultRegion (s : InferState) (r : Region) : Region :=
  match fullyResolveRegion s r with
  | some r2 => r2
  | none => Region.reStatic

def resolverResultKind (s : InferState) : Kind → Kind
  | .kTy t => .kTy (resolverResultTy s t)
  | .kRegion r => .kRegion (resolverResultRegion s r)

def resolverResultSubsts (s : InferState) (l : List Kind) : List Kind :=
  l.map (resolverResultKind s)

/-- `Resolver::fold_ty` together with its `report_error` side effect: on
failure the error type is substituted and, unless the session already has
errors, a need-type-info diagnostic is emitted (which itself raises the
session error count). -/
def resolveTyS (s : InferState) (st : WbState) (t : Ty) : Ty × WbState :=
  match fullyResolveTy s t with
  | some t2 => (t2, st)
  | none =>
    if st.hasErrors then (Ty.tyErr, st)
    else (Ty.tyErr, { st with hasErrors := true, ambigDiags := st.ambigDiags ++ [t] })

/-- `Resolver::fold_region`: on failure the static region is substituted and
no diagnostic is emitted. -/
def resolveRegionS (s : InferState) (st : WbState) (r : Region) : Region × WbState :=
  match fullyResolveRegion s r with
  | some r2 => (r2, st)
  | none => (Region.reStatic, st)

def resolveKindS (s : InferState) (st : WbState) : Kind → Kind × WbState
  | .kTy t =>
    let p := resolveTyS s st t
    (.kTy p.1, p.2)
  | .kRegion r =>
    let p := resolveRegionS s st r
    (.kRegion p.1, p.2)

/-- Folding a substitution list resolves each entry in order. -/
def resolveSubstsS (s : InferState) (st : WbState) : List Kind → List Kind × WbState
  | [] => ([], st)
  | k :: ks =>
    let p := resolveKindS s st k
    let q := resolveSubstsS s p.2 ks
    (p.1 :: q.1, q.2)

/-- Folding an optional autoref borrow resolves the region inside a
by-reference borrow and leaves raw-pointer borrows unchanged. -/
def resolveAutoBorrowS (s : InferState) (st : WbState) :
    Option AutoBorrow → Option AutoBorrow × WbState
  | none => (none, st)
  | some (.refBorrow r m) =>
    let p := resolveRegionS s st r
    (some (.refBorrow p.1 m), p.2)
  | some (.rawPtr m) => (some (.rawPtr m), st)

/-! The writeback context operations, in source order. -/

/-- Modelled from the spec: `FnCtxt::node_ty` (`nodeType(node) -> Type` in
the spec's interface section) is a read-only query of the scratch node-type
table — the source calls it repeatedly for the same node — and its absence
for a visited node is an internal compiler error, modelled as `none`. -/
def node_ty (st : WbState) (id : Nat) : Option Ty :=
  lookupA st.scratch.node_types id

/-- Removal of a scratch method-map entry
(`fcx.tables.borrow_mut().method_map.remove(..)`). -/
def removeScratchMethod (st : WbState) (mc : MethodCall) : WbState :=
  { st with scratch := { st.scratch with method_map := removeA st.scratch.method_map mc } }

/-- Removal of a scratch adjustment entry
(`fcx.tables.borrow_mut().adjustments.remove(..)`). -/
def removeScratchAdjustment (st : WbState) (n : Nat) : WbState :=
  { st with scratch := { st.scratch with adjustments := removeA st.scratch.adjustments n } }

/-- The binary/compound-assignment arm of `fix_scalar_builtin_expr`: both
operand types are looked up and best-effort resolved; if both are scalar the
method-map entry of the expression is removed, and the left operand's
adjustment entry is removed as well — unconditionally for compound
assignment, and only for non-by-value operators for plain binary
expressions. -/
def fix_scalar_binop (s : InferState) (st : WbState) (eid : Nat) (lhs rhs : Expr)
    (isAssign : Bool) (op : BinOpKind) : Option WbState :=
  match node_ty st lhs.id with
  | none => none
  | some lhs_ty0 =>
    match node_ty st rhs.id with
    | none => none
    | some rhs_ty0 =>
      let lhs_ty := resolve_type_vars_if_possible s lhs_ty0
      let rhs_ty := resolve_type_vars_if_possible s rhs_ty0
      if lhs_ty.is_scalar && rhs_ty.is_scalar then
        let st1 := removeScratchMethod st (MethodCall.expr eid)
        let st2 :=
          if isAssign then removeScratchAdjustment st1 lhs.id
          else if !op.is_by_value then removeScratchAdjustment st1 lhs.id
          else st1
        some st2
      else some st

/-- Lines 140-181 of the source: during writeback, an operator expression
observed to act on scalars has its spurious overload bookkeeping cleared. -/
def fix_scalar_builtin_expr (s : InferState) (e : Expr) (st : WbState) :
    Option WbState :=
  match e with
  | .unary eid uop inner =>
    match uop with
    | .unNeg | .unNot =>
      match node_ty st inner.id with
      | none => none
      | some inner_ty0 =>
        let inner_ty := resolve_type_vars_if_possible s inner_ty0
        if inner_ty.is_scalar then
          some (removeScratchMethod st (MethodCall.expr eid))
        else some st
    | .unDeref => some st
  | .binary eid op lhs rhs => fix_scalar_binop s st eid lhs rhs false op
  | .assignOp eid op lhs rhs => fix_scalar_binop s st eid lhs rhs true op
  | .lit _ => some st

/-- Lines 403-427 of the source: remove the scratch method-map entry for the
call site, fold the callee's type and substitutions, and insert the result
into the final tables; absent entries are skipped. -/
def visit_method_map_entry (s : InferState) (mc : MethodCall) (st : WbState) :
    WbState :=
  match lookupA st.scratch.method_map mc with
  | some method =>
    let st1 := removeScratchMethod st mc
    let p := resolveTyS s st1 method.ty
    let q := resolveSubstsS s p.2 method.substs
    let st2 := q.2
    { st2 with
      tables := { st2.tables with
        method_map :=
          insertA st2.tables.method_map mc ⟨method.def_id, p.1, q.1⟩ } }
  | none => st

/-- The `for autoderef in 0..autoderefs` loop of `visit_adjustments`: each
auto-dereference step's method entry is transferred through
`visit_method_map_entry`. -/
def visit_autoderef_steps (s : InferState) (node_id : Nat) :
    List Nat → WbState → WbState
  | [], st => st
  | i :: rest, st =>
    visit_autoderef_steps s node_id rest
      (visit_method_map_entry s (MethodCall.autoderefAt node_id i) st)

/-- Lines 351-401 of the source: remove the node's scratch adjustment, fold
it (transferring per-step method entries for a deref-ref adjustment), and
insert the result into the final tables. -/
def visit_adjustments (s : InferState) (node_id : Nat) (st : WbState) : WbState :=
  match lookupA st.scratch.adjustments node_id with
  | none => st
  | some adjustment =>
    let st0 := removeScratchAdjustment st node_id
    let kp : Adjust × WbState :=
      match adjustment.kind with
      | .neverToAny => (Adjust.neverToAny, st0)
      | .reifyFnPointer => (Adjust.reifyFnPointer, st0)
      | .mutToConstPointer => (Adjust.mutToConstPointer, st0)
      | .closureFnPointer => (Adjust.closureFnPointer, st0)
      | .toUnsafeFnPointer => (Adjust.toUnsafeFnPointer, st0)
      | .derefRef autoderefs autoref unsize =>
        let st1 := visit_autoderef_steps s node_id (List.range autoderefs) st0
        let p := resolveAutoBorrowS s st1 autoref
        (Adjust.derefRef autoderefs p.1 unsize, p.2)
    let tp := resolveTyS s kp.2 adjustment.target
    let st2 := tp.2
    { st2 with
      tables := { st2.tables with
        adjustments := insertA st2.tables.adjustments node_id ⟨kp.1, tp.1⟩ } }

/-- Lines 130-134 of the source: assert the folded type carries no residual
inference variable (assertion failure is an internal abort, modelled as
`none`), then store it in the final node-type table. -/
def write_ty_to_tables (st : WbState) (node_id : Nat) (ty : Ty) : Option WbState :=
  if ty.needsInfer then none
  else
    some { st with
      tables := { st.tables with
        node_types := insertA st.tables.node_types node_id ty } }

/-- Modelled from the spec: `ItemSubsts::is_noop` is not part of the source
file; an identity (no-op) substitution list is the empty list, which later
phases treat as absent. -/
def is_noop (l : List Kind) : Bool := l.isEmpty

/-- Model of `Substs::needs_infer` on a substitution list. -/
def substsNeedInfer (l : List Kind) : Bool :=
  l.any fun k =>
    match k with
    | .kTy t => t.needsInfer
    | .kRegion r => r.needsInfer

/-- Lines 325-349 of the source: transfer the node's associated-path
definition (moved unchanged), its adjustment, its type (through the folding
engine, with the no-residue assertion), and its substitution list (stored
only when not a no-op, with its own no-residue assertion).  The node type and
substitution list are obtained through the read-only queries `node_ty` and
`opt_node_ty_substs`, which do not remove the scratch entries.  The first
step (lines 326-329, the associated-path export, moved unchanged) is split
out as `export_path_def`. -/
def export_path_def (node_id : Nat) (st : WbState) : WbState :=
  match lookupA st.scratch.type_relative_path_defs node_id with
  | some d =>
    { st with
      scratch := { st.scratch with
        type_relative_path_defs :=
          removeA st.scratch.type_relative_path_defs node_id },
      tables := { st.tables with
        type_relative_path_defs :=
          insertA st.tables.type_relative_path_defs node_id d } }
  | none => st

def visit_node_id (s : InferState) (node_id : Nat) (st : WbState) :
    Option WbState :=
  let stA := export_path_def node_id st
  let stB := visit_adjustments s node_id stA
  match node_ty stB node_id with
  | none => none
  | some n_ty0 =>
    let p := resolveTyS s stB n_ty0
    match write_ty_to_tables p.2 node_id p.1 with
    | none => none
    | some stC =>
      match lookupA stC.scratch.item_substs node_id with
      | none => some stC
      | some item_substs0 =>
        let q := resolveSubstsS s stC item_substs0
        if is_noop q.1 then some q.2
        else if substsNeedInfer q.1 then none
        else
          some { q.2 with
            tables := { q.2.tables with
              item_substs := insertA q.2.tables.item_substs node_id q.1 } }

/-- The per-node part of `Visitor::visit_expr` (lines 202-206 of the source):
the scalar-simplification rule first, then the node-scoped transfer, then the
node's own method-map transfer. -/
def visit_expr_pre (s : InferState) (e : Expr) (st : WbState) : Option WbState :=
  match fix_scalar_builtin_expr s e st with
  | none => none
  | some st1 =>
    match visit_node_id s e.id st1 with
    | none => none
    | some st2 => some (visit_method_map_entry s (MethodCall.expr e.id) st2)

/-- The tree walk over an expression (`Visitor::visit_expr` plus
`intravisit::walk_expr`): the per-node work, then recursion into the
children in source order. -/
def visit_expr (s : InferState) : Expr → WbState → Option WbState
  | .lit i, st => visit_expr_pre s (.lit i) st
  | .unary i op inner, st =>
    match visit_expr_pre s (.unary i op inner) st with
    | none => none
    | some st1 => visit_expr s inner st1
  | .binary i op lhs rhs, st =>
    match visit_expr_pre s (.binary i op lhs rhs) st with
    | none => none
    | some st1 =>
      match visit_expr s lhs st1 with
      | none => none
      | some st2 => visit_expr s rhs st2
  | .assignOp i op lhs rhs, st =>
    match visit_expr_pre s (.assignOp i op lhs rhs) st with
    | none => none
    | some st1 =>
      match visit_expr s lhs st1 with
      | none => none
      | some st2 => visit_expr s rhs st2

/-! The opaque-type (`impl Trait`) externalizer, lines 281-323. -/

/-- The region-rewriting closure of `visit_anon_types`: static and empty
regions pass through; a named free region present in the free-to-bound map is
replaced by its early-bound form; every other free, early-bound, late-bound,
scope or skolemized region is a user error (the offending region is
reported and the static region substituted); an inference-variable or erased
region is an internal abort (`span_bug`), modelled as `none`. -/
def convert_anon_region (f2b : List (Nat × Region)) (r : Region) :
    Option (Region × List Region) :=
  match r with
  | .reStatic => some (.reStatic, [])
  | .reEmpty => some (.reEmpty, [])
  | .reFree scopeId br =>
    match br with
    | .brNamed did name =>
      match lookupA f2b did with
      | some r2 => some (r2, [])
      | none => some (.reStatic, [.reFree scopeId (.brNamed did name)])
    | .brAnon i => some (.reStatic, [.reFree scopeId (.brAnon i)])
  | .reEarlyBound i n => some (.reStatic, [.reEarlyBound i n])
  | .reLateBound d br => some (.reStatic, [.reLateBound d br])
  | .reScope c => some (.reStatic, [.reScope c])
  | .reSkolemized i br => some (.reStatic, [.reSkolemized i br])
  | .reVar _ => none
  | .reErased => none

/-- `gcx.fold_regions` applied with `convert_anon_region`: rewrite every
region position of the type, collecting the offending regions of the error
arm. -/
def foldAnonRegions (f2b : List (Nat × Region)) : Ty → Option (Ty × List Region)
  | .tyRef r t =>
    match convert_anon_region f2b r with
    | none => none
    | some p =>
      match foldAnonRegions f2b t with
      | none => none
      | some q => some (.tyRef p.1 q.1, p.2 ++ q.2)
  | .tyTuple2 a b =>
    match foldAnonRegions f2b a with
    | none => none
    | some p =>
      match foldAnonRegions f2b b with
      | none => none
      | some q => some (.tyTuple2 p.1 q.1, p.2 ++ q.2)
  | t => some (t, [])

/-- One entry of `visit_anon_types`: fold the concrete type, rewrite its
regions into the externally valid form (each offending region emitting a
user-facing diagnostic at the opaque-type node, which raises the session
error count), and store the outside type into the final node-type table. -/
def visit_anon_type_entry (s : InferState) (f2b : List (Nat × Region))
    (st : WbState) (nid : Nat) (cty : Ty) : Option WbState :=
  let p := resolveTyS s st cty
  match foldAnonRegions f2b p.1 with
  | none => none
  | some q =>
    let st1 := p.2
    let st2 :=
      if q.2.isEmpty then st1
      else
        { st1 with
          hasErrors := true,
          opaqueDiags := st1.opaqueDiags ++ q.2.map (fun r => (nid, r)) }
    some { st2 with
      tables := { st2.tables with
        node_types := insertA st2.tables.node_types nid q.1 } }

/-- Lines 281-323 of the source: process every opaque-type record. -/
def visit_anon_types (s : InferState) (f2b : List (Nat × Region)) :
    List (Nat × Ty) → WbState → Option WbState
  | [], st => some st
  | (nid, cty) :: rest, st =>
    match visit_anon_type_entry s f2b st nid cty with
    | none => none
    | some st1 => visit_anon_types s f2b rest st1

/-! Construction of the writeback context, lines 85-124. -/

/-- The loop of `WritebackCx::new` over the enumerated free substitutions:
type entries are skipped (`as_region` is `none`); a named free region maps
its def-id to the early-bound region with the entry's index; any other region
shape is `bug!`, an internal abort modelled as `none`. -/
def build_free_to_bound_aux :
    Nat → List Kind → List (Nat × Region) → Option (List (Nat × Region))
  | _, [], acc => some acc
  | i, k :: rest, acc =>
    match k.as_region with
    | none => build_free_to_bound_aux (i + 1) rest acc
    | some r =>
      match r with
      | .reFree _ (.brNamed did name) =>
        build_free_to_bound_aux (i + 1) rest
          (insertA acc did (.reEarlyBound i name))
      | _ => none

/-- `WritebackCx::new`: the free-to-bound region map stays empty (early
return) when there is no opaque-type record, and is built from the free
substitutions otherwise. -/
def writeback_cx_new (anon_types : List (Nat × Ty)) (free_substs : List Kind) :
    Option (List (Nat × Region)) :=
  if anon_types.isEmpty then some []
  else build_free_to_bound_aux 0 free_substs []

/-- The inputs of one writeback run: the solver state, the function's free
substitutions and opaque-type records, the body (argument node ids and body
expression), and the inference context's taint flag
(`is_tainted_by_errors`). -/
structure Env where
  infer : InferState
  free_substs : List Kind
  anon_types : List (Nat × Ty)
  body_args : List Nat
  body : Expr
  infcx_tainted : Bool
  deriving DecidableEq

/-- The loop over `body.arguments` at the start of
`resolve_type_vars_in_body`. -/
def visit_arg_ids (s : InferState) : List Nat → WbState → Option WbState
  | [], st => some st
  | n :: rest, st =>
    match visit_node_id s n st with
    | none => none
    | some st1 => visit_arg_ids s rest st1

/-- Lines 31-59 of the source, restricted to the operations modelled here:
build the context (fatal abort propagates), visit the argument nodes, walk
the body, process the opaque-type records after the tree walk, and record the
taint flag in the final tables. -/
def resolve_type_vars_in_body (env : Env) (st : WbState) : Option WbState :=
  match writeback_cx_new env.anon_types env.free_substs with
  | none => none
  | some f2b =>
    match visit_arg_ids env.infer env.body_args st with
    | none => none
    | some st1 =>
      match visit_expr env.infer env.body st1 with
      | none => none
      | some st2 =>
        match visit_anon_types env.infer f2b env.anon_types st2 with
        | none => none
        | some st3 =>
          some { st3 with
            tables := { st3.tables with tainted_by_errors := env.infcx_tainted } }

/-! Concrete inputs and outputs used by the claim witnesses and the
counterexample below.  Each is a small, fully evaluated instance of the data
model. -/

def exInfer : InferState := ⟨[], []⟩

def c1St : WbState :=
  ⟨⟨[(1, Ty.tyInt), (2, Ty.tyInt)], [],
    [(1, ⟨Adjust.derefRef 1 none false, Ty.tyInt⟩)],
    [(MethodCall.expr 10, ⟨99, Ty.tyInt, []⟩)], []⟩,
   FinalTables.empty, false, [], []⟩

def c2St : WbState := ⟨⟨[], [], [], [], []⟩, FinalTables.empty, false, [], []⟩

def c3Env : Env := ⟨⟨[], []⟩, [], [], [], Expr.lit 1, false⟩

def c3St : WbState :=
  ⟨⟨[(1, Ty.tyInt)], [], [], [], []⟩, FinalTables.empty, false, [], []⟩

def c3Out : WbState :=
  ⟨⟨[(1, Ty.tyInt)], [], [], [], []⟩,
   ⟨[(1, Ty.tyInt)], [], [], [], [], false⟩, false, [], []⟩

def c4Env : Env :=
  ⟨⟨[], []⟩, [Kind.kRegion (Region.reFree 0 (BoundRegion.brNamed 3 "a"))],
   [(7, Ty.tyRef (Region.reFree 0 (BoundRegion.brNamed 3 "a")) Ty.tyBool)],
   [], Expr.lit 1, false⟩

def c4St : WbState :=
  ⟨⟨[(1, Ty.tyInt)], [], [], [], []⟩, FinalTables.empty, false, [], []⟩

def c4Out : WbState :=
  ⟨⟨[(1, Ty.tyInt)], [], [], [], []⟩,
   ⟨[(7, Ty.tyRef (Region.reEarlyBound 0 "a") Ty.tyBool), (1, Ty.tyInt)],
    [], [], [], [], false⟩, false, [], []⟩

def c5St : WbState := ⟨⟨[], [], [], [], []⟩, FinalTables.empty, false, [], []⟩

def c5Out : WbState :=
  ⟨⟨[], [], [], [], []⟩,
   ⟨[(7, Ty.tyRef Region.reStatic Ty.tyBool)], [], [], [], [], false⟩,
   true, [], [(7, Region.reScope 2)]⟩

def c6St : WbState :=
  ⟨⟨[(5, Ty.tyInt)], [(5, ([] : List Kind))], [], [], []⟩,
   FinalTables.empty, false, [], []⟩

def c6Out : WbState :=
  ⟨⟨[(5, Ty.tyInt)], [(5, ([] : List Kind))], [], [], []⟩,
   ⟨[(5, Ty.tyInt)], [], [], [], [], false⟩, false, [], []⟩

def c7Env : Env := ⟨⟨[], []⟩, [], [], [], Expr.lit 1, false⟩

def c7St : WbState :=
  ⟨⟨[(1, Ty.tyInfer 0)], [], [], [], []⟩, FinalTables.empty, false, [], []⟩

def c7Out : WbState :=
  ⟨⟨[(1, Ty.tyInfer 0)], [], [], [], []⟩,
   ⟨[(1, Ty.tyErr)], [], [], [], [], false⟩, true, [Ty.tyInfer 0], []⟩

def c8EnvBad : Env :=
  ⟨⟨[], []⟩, [Kind.kRegion Region.reStatic], [(7, Ty.tyBool)], [],
   Expr.lit 1, false⟩

def c8St : WbState := ⟨⟨[], [], [], [], []⟩, FinalTables.empty, false, [], []⟩

def c9St : WbState :=
  ⟨⟨[(1, Ty.tyInt)], [], [], [], [(1, 42)]⟩, FinalTables.empty, false, [], []⟩

def c9Out : WbState :=
  ⟨⟨[(1, Ty.tyInt)], [], [], [], []⟩,
   ⟨[(1, Ty.tyInt)], [], [], [], [(1, 42)], false⟩, false, [], []⟩

def c10St : WbState :=
  ⟨⟨[(10, Ty.tyInt), (1, Ty.tyInfer 0), (2, Ty.tyInt)], [], [],
    [(MethodCall.expr 10, ⟨99, Ty.tyInt, []⟩)], []⟩,
   FinalTables.empty, false, [], []⟩

def c10Out : WbState :=
  ⟨⟨[(10, Ty.tyInt), (1, Ty.tyInfer 0), (2, Ty.tyInt)], [], [], [], []⟩,
   ⟨[(2, Ty.tyInt), (1, Ty.tyErr), (10, Ty.tyInt)], [], [],
    [(MethodCall.expr 10, ⟨99, Ty.tyInt, []⟩)], [], false⟩,
   true, [Ty.tyInfer 0], []⟩

/-! Association-list lemmas. -/

theorem lookupA_removeA {κ α : Type} [DecidableEq κ] (l : List (κ × α)) (k0 k : κ) :
    lookupA (removeA l k0) k = if k = k0 then none else lookupA l k := by
  induction l with
  | nil => simp [removeA, lookupA]
  | cons p rest ih =>
    obtain ⟨pk, pv⟩ := p
    simp only [removeA]
    by_cases h1 : pk = k0
    · simp only [if_pos h1, ih, lookupA]
      by_cases h2 : k = k0
      · simp [h2]
      · have h3 : ¬pk = k := fun h => h2 (h ▸ h1)
        simp [h2, h3]
    · simp only [if_neg h1, lookupA]
      by_cases h2 : pk = k
      · have h3 : ¬k = k0 := fun h => h1 (h2.trans h)
        simp [h2, h3]
      · simp [h2, ih]

theorem lookupA_insertA {κ α : Type} [DecidableEq κ] (l : List (κ × α)) (k0 k : κ)
    (v : α) :
    lookupA (insertA l k0 v) k = if k = k0 then some v else lookupA l k := by
  by_cases h : k = k0
  · simp [insertA, lookupA, h]
  · simp [insertA, lookupA, Ne.symm h, lookupA_removeA, h]

theorem removeA_eq_of_lookupA_none {κ α : Type} [DecidableEq κ]
    (l : List (κ × α)) (k : κ) (h : lookupA l k = none) : removeA l k = l := by
  induction l with
  | nil => rfl
  | cons p rest ih =>
    obtain ⟨pk, pv⟩ := p
    by_cases h1 : pk = k
    · simp [lookupA, h1] at h
    · simp [lookupA, h1] at h
      simp [removeA, h1, ih h]

/-! Resolver basic lemmas. -/

theorem fullyResolveTy_some {s : InferState} {t t2 : Ty}
    (h : fullyResolveTy s t = some t2) : t2.needsInfer = false := by
  unfold fullyResolveTy at h
  by_cases hb : (substTy s t).needsInfer
  · simp [hb] at h
  · simp [hb] at h
    subst h
    exact eq_false_of_ne_true hb

theorem fullyResolveRegion_some {s : InferState} {r r2 : Region}
    (h : fullyResolveRegion s r = some r2) : r2.needsInfer = false := by
  unfold fullyResolveRegion at h
  by_cases hb : (substRegion s r).needsInfer
  · simp [hb] at h
  · simp [hb] at h
    subst h
    exact eq_false_of_ne_true hb

theorem resolverResultTy_not_infer (s : InferState) (t : Ty) :
    (resolverResultTy s t).needsInfer = false := by
  unfold resolverResultTy
  cases h : fullyResolveTy s t with
  | none => rfl
  | some t2 => exact fullyResolveTy_some h

theorem resolverResultRegion_not_infer (s : InferState) (r : Region) :
    (resolverResultRegion s r).needsInfer = false := by
  unfold resolverResultRegion
  cases h : fullyResolveRegion s r with
  | none => rfl
  | some r2 => exact fullyResolveRegion_some h

theorem resolverResultSubsts_not_infer (s : InferState) (l : List Kind) :
    substsNeedInfer (resolverResultSubsts s l) = false := by
  induction l with
  | nil => rfl
  | cons k ks ih =>
    cases k with
    | kTy t =>
      simp [resolverResultSubsts, substsNeedInfer, resolverResultKind,
        resolverResultTy_not_infer] at ih ⊢
      exact ih
    | kRegion r =>
      simp [resolverResultSubsts, substsNeedInfer, resolverResultKind,
        resolverResultRegion_not_infer] at ih ⊢
      exact ih

theorem resolveTyS_fst (s : InferState) (st : WbState) (t : Ty) :
    (resolveTyS s st t).1 = resolverResultTy s t := by
  unfold resolveTyS resolverResultTy
  cases fullyResolveTy s t with
  | none => by_cases h : st.hasErrors <;> simp [h]
  | some t2 => rfl

theorem resolveTyS_scratch (s : InferState) (st : WbState) (t : Ty) :
    (resolveTyS s st t).2.scratch = st.scratch := by
  unfold resolveTyS
  cases fullyResolveTy s t with
  | none => by_cases h : st.hasErrors <;> simp [h]
  | some t2 => rfl

theorem resolveTyS_tables (s : InferState) (st : WbState) (t : Ty) :
    (resolveTyS s st t).2.tables = st.tables := by
  unfold resolveTyS
  cases fullyResolveTy s t with
  | none => by_cases h : st.hasErrors <;> simp [h]
  | some t2 => rfl

theorem resolveRegionS_fst (s : InferState) (st : WbState) (r : Region) :
    (resolveRegionS s st r).1 = resolverResultRegion s r := by
  unfold resolveRegionS resolverResultRegion
  cases fullyResolveRegion s r <;> rfl

theorem resolveRegionS_snd (s : InferState) (st : WbState) (r : Region) :
    (resolveRegionS s st r).2 = st := by
  unfold resolveRegionS
  cases fullyResolveRegion s r <;> rfl

theorem resolveKindS_fst (s : InferState) (st : WbState) (k : Kind) :
    (resolveKindS s st k).1 = resolverResultKind s k := by
  cases k with
  | kTy t => simp [resolveKindS, resolverResultKind, resolveTyS_fst]
  | kRegion r => simp [resolveKindS, resolverResultKind, resolveRegionS_fst]

theorem resolveKindS_scratch (s : InferState) (st : WbState) (k : Kind) :
    (resolveKindS s st k).2.scratch = st.scratch := by
  cases k with
  | kTy t => simp [resolveKindS, resolveTyS_scratch]
  | kRegion r => simp [resolveKindS, resolveRegionS_snd]

theorem resolveKindS_tables (s : InferState) (st : WbState) (k : Kind) :
    (resolveKindS s st k).2.tables = st.tables := by
  cases k with
  | kTy t => simp [resolveKindS, resolveTyS_tables]
  | kRegion r => simp [resolveKindS, resolveRegionS_snd]

theorem resolveSubstsS_fst (s : InferState) (l : List Kind) :
    ∀ st : WbState, (resolveSubstsS s st l).1 = resolverResultSubsts s l := by
  induction l with
  | nil => intro st; rfl
  | cons k ks ih =>
    intro st
    simp [resolveSubstsS, resolverResultSubsts, resolveKindS_fst, ih,
      List.map]

theorem resolveSubstsS_scratch (s : InferState) (l : List Kind) :
    ∀ st : WbState, (resolveSubstsS s st l).2.scratch = st.scratch := by
  induction l with
  | nil => intro st; rfl
  | cons k ks ih =>
    intro st
    simp [resolveSubstsS, ih, resolveKindS_scratch]

theorem resolveSubstsS_tables (s : InferState) (l : List Kind) :
    ∀ st : WbState, (resolveSubstsS s st l).2.tables = st.tables := by
  induction l with
  | nil => intro st; rfl
  | cons k ks ih =>
    intro st
    simp [resolveSubstsS, ih, resolveKindS_tables]

theorem resolveAutoBorrowS_scratch (s : InferState) (st : WbState)
    (ab : Option AutoBorrow) : (resolveAutoBorrowS s st ab).2.scratch = st.scratch := by
  cases ab with
  | none => rfl
  | some b =>
    cases b with
    | refBorrow r m => simp [resolveAutoBorrowS, resolveRegionS_snd]
    | rawPtr m => rfl

theorem resolveAutoBorrowS_tables (s : InferState) (st : WbState)
    (ab : Option AutoBorrow) : (resolveAutoBorrowS s st ab).2.tables = st.tables := by
  cases ab with
  | none => rfl
  | some b =>
    cases b with
    | refBorrow r m => simp [resolveAutoBorrowS, resolveRegionS_snd]
    | rawPtr m => rfl

/-! Method-call key lemmas. -/

theorem expr_ne_autoderefAt (n m i : Nat) :
    MethodCall.expr n ≠ MethodCall.autoderefAt m i := by
  intro h
  have h2 := congrArg MethodCall.autoderef h
  simp [MethodCall.expr, MethodCall.autoderefAt] at h2

theorem ne_autoderefAt_of (n i : Nat) (k : MethodCall)
    (h : k.autoderef = 0 ∨ k.expr_id ≠ n) : k ≠ MethodCall.autoderefAt n i := by
  intro he
  subst he
  cases h with
  | inl h2 => exact absurd h2 (Nat.succ_ne_zero i)
  | inr h2 => exact h2 rfl

theorem expr_autoderef_zero (n : Nat) : (MethodCall.expr n).autoderef = 0 := rfl

/-! Effect of `visit_method_map_entry` on the state. -/

theorem visit_method_map_entry_scratch (s : InferState) (mc : MethodCall)
    (st : WbState) :
    (visit_method_map_entry s mc st).scratch =
      { st.scratch with method_map := removeA st.scratch.method_map mc } := by
  unfold visit_method_map_entry
  cases h : lookupA st.scratch.method_map mc with
  | none =>
    rw [removeA_eq_of_lookupA_none st.scratch.method_map mc h]
  | some m =>
    simp [removeScratchMethod, resolveTyS_scratch, resolveSubstsS_scratch]

theorem visit_method_map_entry_tables_node_types (s : InferState)
    (mc : MethodCall) (st : WbState) :
    (visit_method_map_entry s mc st).tables.node_types = st.tables.node_types := by
  unfold visit_method_map_entry
  cases h : lookupA st.scratch.method_map mc with
  | none => rfl
  | some m => simp [removeScratchMethod, resolveTyS_tables, resolveSubstsS_tables]

theorem visit_method_map_entry_tables_item_substs (s : InferState)
    (mc : MethodCall) (st : WbState) :
    (visit_method_map_entry s mc st).tables.item_substs = st.tables.item_substs := by
  unfold visit_method_map_entry
  cases h : lookupA st.scratch.method_map mc with
  | none => rfl
  | some m => simp [removeScratchMethod, resolveTyS_tables, resolveSubstsS_tables]

theorem visit_method_map_entry_tables_trpd (s : InferState)
    (mc : MethodCall) (st : WbState) :
    (visit_method_map_entry s mc st).tables.type_relative_path_defs =
      st.tables.type_relative_path_defs := by
  unfold visit_method_map_entry
  cases h : lookupA st.scratch.method_map mc with
  | none => rfl
  | some m => simp [removeScratchMethod, resolveTyS_tables, resolveSubstsS_tables]

theorem visit_method_map_entry_tables_adjustments (s : InferState)
    (mc : MethodCall) (st : WbState) :
    (visit_method_map_entry s mc st).tables.adjustments = st.tables.adjustments := by
  unfold visit_method_map_entry
  cases h : lookupA st.scratch.method_map mc with
  | none => rfl
  | some m => simp [removeScratchMethod, resolveTyS_tables, resolveSubstsS_tables]

theorem visit_method_map_entry_tables_method_ne (s : InferState)
    (mc k : MethodCall) (st : WbState) (h : k ≠ mc) :
    lookupA (visit_method_map_entry s mc st).tables.method_map k =
      lookupA st.tables.method_map k := by
  unfold visit_method_map_entry
  cases h2 : lookupA st.scratch.method_map mc with
  | none => rfl
  | some m =>
    simp [removeScratchMethod, resolveTyS_tables, resolveSubstsS_tables,
      lookupA_insertA, h]

theorem visit_method_map_entry_tables_method_some (s : InferState)
    (mc : MethodCall) (st : WbState) (m : MethodCallee)
    (h : lookupA st.scratch.method_map mc = some m) :
    lookupA (visit_method_map_entry s mc st).tables.method_map mc =
      some ⟨m.def_id, resolverResultTy s m.ty, resolverResultSubsts s m.substs⟩ := by
  unfold visit_method_map_entry
  rw [h]
  simp [removeScratchMethod, resolveTyS_tables, resolveSubstsS_tables,
    resolveTyS_fst, resolveSubstsS_fst, lookupA_insertA]

/-! Effect of `visit_autoderef_steps` on the state. -/

theorem visit_autoderef_steps_scratch_others (s : InferState) (n : Nat)
    (L : List Nat) : ∀ st : WbState,
    (visit_autoderef_steps s n L st).scratch.node_types = st.scratch.node_types ∧
    (visit_autoderef_steps s n L st).scratch.item_substs = st.scratch.item_substs ∧
    (visit_autoderef_steps s n L st).scratch.adjustments = st.scratch.adjustments ∧
    (visit_autoderef_steps s n L st).scratch.type_relative_path_defs =
      st.scratch.type_relative_path_defs := by
  induction L with
  | nil => intro st; exact ⟨rfl, rfl, rfl, rfl⟩
  | cons i rest ih =>
    intro st
    have h1 := visit_method_map_entry_scratch s (MethodCall.autoderefAt n i) st
    have h2 := ih (visit_method_map_entry s (MethodCall.autoderefAt n i) st)
    simp only [visit_autoderef_steps]
    refine ⟨?_, ?_, ?_, ?_⟩
    · rw [h2.1, h1]
    · rw [h2.2.1, h1]
    · rw [h2.2.2.1, h1]
    · rw [h2.2.2.2, h1]

theorem visit_autoderef_steps_tables_others (s : InferState) (n : Nat)
    (L : List Nat) : ∀ st : WbState,
    (visit_autoderef_steps s n L st).tables.node_types = st.tables.node_types ∧
    (visit_autoderef_steps s n L st).tables.item_substs = st.tables.item_substs ∧
    (visit_autoderef_steps s n L st).tables.adjustments = st.tables.adjustments ∧
    (visit_autoderef_steps s n L st).tables.type_relative_path_defs =
      st.tables.type_relative_path_defs := by
  induction L with
  | nil => intro st; exact ⟨rfl, rfl, rfl, rfl⟩
  | cons i rest ih =>
    intro st
    set st1 := visit_method_map_entry s (MethodCall.autoderefAt n i) st with hst1
    have h2 := ih st1
    simp only [visit_autoderef_steps, ← hst1]
    refine ⟨?_, ?_, ?_, ?_⟩
    · rw [h2.1, hst1, visit_method_map_entry_tables_node_types]
    · rw [h2.2.1, hst1, visit_method_map_entry_tables_item_substs]
    · rw [h2.2.2.1, hst1, visit_method_map_entry_tables_adjustments]
    · rw [h2.2.2.2, hst1, visit_method_map_entry_tables_trpd]

theorem visit_autoderef_steps_scratch_method_frame (s : InferState) (n : Nat)
    (k : MethodCall) (hk : k.autoderef = 0 ∨ k.expr_id ≠ n)
    (L : List Nat) : ∀ st : WbState,
    lookupA (visit_autoderef_steps s n L st).scratch.method_map k =
      lookupA st.scratch.method_map k := by
  induction L with
  | nil => intro st; rfl
  | cons i rest ih =>
    intro st
    set st1 := visit_method_map_entry s (MethodCall.autoderefAt n i) st with hst1
    simp only [visit_autoderef_steps, ← hst1]
    rw [ih st1, hst1, visit_method_map_entry_scratch]
    simp only [lookupA_removeA]
    rw [if_neg (ne_autoderefAt_of n i k hk)]

theorem visit_autoderef_steps_tables_method_frame (s : InferState) (n : Nat)
    (k : MethodCall) (hk : k.autoderef = 0 ∨ k.expr_id ≠ n)
    (L : List Nat) : ∀ st : WbState,
    lookupA (visit_autoderef_steps s n L st).tables.method_map k =
      lookupA st.tables.method_map k := by
  induction L with
  | nil => intro st; rfl
  | cons i rest ih =>
    intro st
    set st1 := visit_method_map_entry s (MethodCall.autoderefAt n i) st with hst1
    simp only [visit_autoderef_steps, ← hst1]
    rw [ih st1, hst1,
      visit_method_map_entry_tables_method_ne s (MethodCall.autoderefAt n i) k st
        (ne_autoderefAt_of n i k hk)]

theorem visit_autoderef_steps_scratch_method_none (s : InferState) (n : Nat)
    (k : MethodCall) (L : List Nat) : ∀ st : WbState,
    lookupA st.scratch.method_map k = none →
    lookupA (visit_autoderef_steps s n L st).scratch.method_map k = none := by
  induction L with
  | nil => intro st h; exact h
  | cons i rest ih =>
    intro st h
    simp only [visit_autoderef_steps]
    refine ih _ ?_
    rw [visit_method_map_entry_scratch]
    simp only [lookupA_removeA]
    by_cases h2 : k = MethodCall.autoderefAt n i
    · rw [if_pos h2]
    · rw [if_neg h2]; exact h

/-! Effect of `visit_adjustments` on the state. -/

theorem visit_adjustments_effect (s : InferState) (n : Nat) (st : WbState) :
    (visit_adjustments s n st).scratch.node_types = st.scratch.node_types ∧
    (visit_adjustments s n st).scratch.item_substs = st.scratch.item_substs ∧
    (visit_adjustments s n st).scratch.type_relative_path_defs =
      st.scratch.type_relative_path_defs ∧
    (visit_adjustments s n st).scratch.adjustments = removeA st.scratch.adjustments n ∧
    (visit_adjustments s n st).tables.node_types = st.tables.node_types ∧
    (visit_adjustments s n st).tables.item_substs = st.tables.item_substs ∧
    (visit_adjustments s n st).tables.type_relative_path_defs =
      st.tables.type_relative_path_defs ∧
    (∀ k : MethodCall, k.autoderef = 0 ∨ k.expr_id ≠ n →
      lookupA (visit_adjustments s n st).scratch.method_map k =
        lookupA st.scratch.method_map k ∧
      lookupA (visit_adjustments s n st).tables.method_map k =
        lookupA st.tables.method_map k) ∧
    (∀ k : MethodCall, lookupA st.scratch.method_map k = none →
      lookupA (visit_adjustments s n st).scratch.method_map k = none) := by
  unfold visit_adjustments
  cases h : lookupA st.scratch.adjustments n with
  | none =>
    refine ⟨rfl, rfl, rfl, ?_, rfl, rfl, rfl, fun k hk => ⟨rfl, rfl⟩, fun k hk => hk⟩
    rw [removeA_eq_of_lookupA_none _ _ h]
  | some adj =>
    obtain ⟨akind, atarget⟩ := adj
    cases akind with
    | neverToAny =>
      refine ⟨?_, ?_, ?_, ?_, ?_, ?_, ?_, fun k hk => ⟨?_, ?_⟩, fun k hk => ?_⟩ <;>
        simp [removeScratchAdjustment, resolveTyS_scratch, resolveTyS_tables] <;>
        simp [hk]
    | reifyFnPointer =>
      refine ⟨?_, ?_, ?_, ?_, ?_, ?_, ?_, fun k hk => ⟨?_, ?_⟩, fun k hk => ?_⟩ <;>
        simp [removeScratchAdjustment, resolveTyS_scratch, resolveTyS_tables] <;>
        simp [hk]
    | mutToConstPointer =>
      refine ⟨?_, ?_, ?_, ?_, ?_, ?_, ?_, fun k hk => ⟨?_, ?_⟩, fun k hk => ?_⟩ <;>
        simp [removeScratchAdjustment, resolveTyS_scratch, resolveTyS_tables] <;>
        simp [hk]
    | closureFnPointer =>
      refine ⟨?_, ?_, ?_, ?_, ?_, ?_, ?_, fun k hk => ⟨?_, ?_⟩, fun k hk => ?_⟩ <;>
        simp [removeScratchAdjustment, resolveTyS_scratch, resolveTyS_tables] <;>
        simp [hk]
    | toUnsafeFnPointer =>
      refine ⟨?_, ?_, ?_, ?_, ?_, ?_, ?_, fun k hk => ⟨?_, ?_⟩, fun k hk => ?_⟩ <;>
        simp [removeScratchAdjustment, resolveTyS_scratch, resolveTyS_tables] <;>
        simp [hk]
    | derefRef a ar u =>
      have hsc := visit_autoderef_steps_scratch_others s n (List.range a)
        (removeScratchAdjustment st n)
      have htb := visit_autoderef_steps_tables_others s n (List.range a)
        (removeScratchAdjustment st n)
      refine ⟨?_, ?_, ?_, ?_, ?_, ?_, ?_, fun k hk => ⟨?_, ?_⟩, fun k hk => ?_⟩
      · simp only [resolveTyS_scratch, resolveAutoBorrowS_scratch]
        rw [hsc.1]; rfl
      · simp only [resolveTyS_scratch, resolveAutoBorrowS_scratch]
        rw [hsc.2.1]; rfl
      · simp only [resolveTyS_scratch, resolveAutoBorrowS_scratch]
        rw [hsc.2.2.2]; rfl
      · simp only [resolveTyS_scratch, resolveAutoBorrowS_scratch]
        rw [hsc.2.2.1]; rfl
      · simp only [resolveTyS_tables, resolveAutoBorrowS_tables]
        rw [htb.1]; rfl
      · simp only [resolveTyS_tables, resolveAutoBorrowS_tables]
        rw [htb.2.1]; rfl
      · simp only [resolveTyS_tables, resolveAutoBorrowS_tables]
        rw [htb.2.2.2]; rfl
      · simp only [resolveTyS_scratch, resolveAutoBorrowS_scratch]
        rw [visit_autoderef_steps_scratch_method_frame s n k hk]; rfl
      · simp only [resolveTyS_tables, resolveAutoBorrowS_tables]
        rw [visit_autoderef_steps_tables_method_frame s n k hk]; rfl
      · simp only [resolveTyS_scratch, resolveAutoBorrowS_scratch]
        exact visit_autoderef_steps_scratch_method_none s n k (List.range a)
          (removeScratchAdjustment st n) hk

/-! Effect of `export_path_def` on the state. -/

theorem export_path_def_effect (n : Nat) (st : WbState) :
    (export_path_def n st).scratch.node_types = st.scratch.node_types ∧
    (export_path_def n st).scratch.item_substs = st.scratch.item_substs ∧
    (export_path_def n st).scratch.adjustments = st.scratch.adjustments ∧
    (export_path_def n st).scratch.method_map = st.scratch.method_map ∧
    (export_path_def n st).scratch.type_relative_path_defs =
      removeA st.scratch.type_relative_path_defs n ∧
    (export_path_def n st).tables.node_types = st.tables.node_types ∧
    (export_path_def n st).tables.item_substs = st.tables.item_substs ∧
    (export_path_def n st).tables.method_map = st.tables.method_map ∧
    (export_path_def n st).tables.type_relative_path_defs =
      (match lookupA st.scratch.type_relative_path_defs n with
       | some d => insertA st.tables.type_relative_path_defs n d
       | none => st.tables.type_relative_path_defs) ∧
    (export_path_def n st).hasErrors = st.hasErrors ∧
    (export_path_def n st).ambigDiags = st.ambigDiags ∧
    (export_path_def n st).opaqueDiags = st.opaqueDiags := by
  unfold export_path_def
  cases h : lookupA st.scratch.type_relative_path_defs n with
  | some d => exact ⟨rfl, rfl, rfl, rfl, rfl, rfl, rfl, rfl, rfl, rfl, rfl, rfl⟩
  | none =>
    refine ⟨rfl, rfl, rfl, rfl, ?_, rfl, rfl, rfl, rfl, rfl, rfl, rfl⟩
    rw [removeA_eq_of_lookupA_none _ _ h]

/-! Effect of `write_ty_to_tables` on the state. -/

theorem write_ty_to_tables_none {st : WbState} {n : Nat} {ty : Ty}
    (h : write_ty_to_tables st n ty = none) : ty.needsInfer = true := by
  unfold write_ty_to_tables at h
  by_cases hb : ty.needsInfer
  · exact hb
  · simp [hb] at h

theorem write_ty_to_tables_effect {st st2 : WbState} {n : Nat} {ty : Ty}
    (h : write_ty_to_tables st n ty = some st2) :
    st2.scratch = st.scratch ∧
    st2.tables.node_types = insertA st.tables.node_types n ty ∧
    st2.tables.item_substs = st.tables.item_substs ∧
    st2.tables.method_map = st.tables.method_map ∧
    st2.tables.type_relative_path_defs = st.tables.type_relative_path_defs ∧
    st2.hasErrors = st.hasErrors := by
  unfold write_ty_to_tables at h
  by_cases hb : ty.needsInfer
  · simp [hb] at h
  · simp only [hb, Bool.false_eq_true, if_false, Option.some.injEq] at h
    subst h
    exact ⟨rfl, rfl, rfl, rfl, rfl, rfl⟩

/-! Effect of `visit_node_id` on the state. -/

theorem visit_node_id_effect (s : InferState) (n : Nat) (st st2 : WbState)
    (h : visit_node_id s n st = some st2) :
    st2.scratch.node_types = st.scratch.node_types ∧
    st2.scratch.item_substs = st.scratch.item_substs ∧
    st2.scratch.adjustments = removeA st.scratch.adjustments n ∧
    st2.scratch.type_relative_path_defs =
      removeA st.scratch.type_relative_path_defs n ∧
    (∀ k : MethodCall, k.autoderef = 0 ∨ k.expr_id ≠ n →
      lookupA st2.scratch.method_map k = lookupA st.scratch.method_map k ∧
      lookupA st2.tables.method_map k = lookupA st.tables.method_map k) ∧
    st2.tables.type_relative_path_defs =
      (match lookupA st.scratch.type_relative_path_defs n with
       | some d => insertA st.tables.type_relative_path_defs n d
       | none => st.tables.type_relative_path_defs) ∧
    (∃ t0, node_ty st n = some t0 ∧
      st2.tables.node_types = insertA st.tables.node_types n (resolverResultTy s t0)) ∧
    st2.tables.item_substs =
      (match lookupA st.scratch.item_substs n with
       | none => st.tables.item_substs
       | some l =>
         if is_noop (resolverResultSubsts s l) then st.tables.item_substs
         else insertA st.tables.item_substs n (resolverResultSubsts s l)) ∧
    (∀ k : MethodCall, lookupA st.scratch.method_map k = none →
      lookupA st2.scratch.method_map k = none) := by
  unfold visit_node_id at h
  simp only [] at h
  have heffA := export_path_def_effect n st
  set stA := export_path_def n st with hstA
  have heff := visit_adjustments_effect s n stA
  set stB := visit_adjustments s n stA with hstB
  have hBnt : stB.scratch.node_types = st.scratch.node_types := by
    rw [heff.1, heffA.1]
  have hBis : stB.scratch.item_substs = st.scratch.item_substs := by
    rw [heff.2.1, heffA.2.1]
  have hBadj : stB.scratch.adjustments = removeA st.scratch.adjustments n := by
    rw [heff.2.2.2.1, heffA.2.2.1]
  have hBtr : stB.scratch.type_relative_path_defs =
      removeA st.scratch.type_relative_path_defs n := by
    rw [heff.2.2.1, heffA.2.2.2.2.1]
  have hBtnt : stB.tables.node_types = st.tables.node_types := by
    rw [heff.2.2.2.2.1, heffA.2.2.2.2.2.1]
  have hBtis : stB.tables.item_substs = st.tables.item_substs := by
    rw [heff.2.2.2.2.2.1, heffA.2.2.2.2.2.2.1]
  have hBttr : stB.tables.type_relative_path_defs =
      (match lookupA st.scratch.type_relative_path_defs n with
       | some d => insertA st.tables.type_relative_path_defs n d
       | none => st.tables.type_relative_path_defs) := by
    rw [heff.2.2.2.2.2.2.1, heffA.2.2.2.2.2.2.2.2.1]
  have hBmeth : ∀ k : MethodCall, k.autoderef = 0 ∨ k.expr_id ≠ n →
      lookupA stB.scratch.method_map k = lookupA st.scratch.method_map k ∧
      lookupA stB.tables.method_map k = lookupA st.tables.method_map k := by
    intro k hk
    refine ⟨?_, ?_⟩
    · rw [(heff.2.2.2.2.2.2.2.1 k hk).1, heffA.2.2.2.1]
    · rw [(heff.2.2.2.2.2.2.2.1 k hk).2, heffA.2.2.2.2.2.2.2.1]
  cases hnt : node_ty stB n with
  | none => rw [hnt] at h; exact absurd h (by simp)
  | some t0 =>
    rw [hnt] at h
    simp only [] at h
    have hnt0 : node_ty st n = some t0 := by
      unfold node_ty at hnt ⊢
      rw [← hnt, hBnt]
    have hni : (resolveTyS s stB t0).1.needsInfer = false := by
      rw [resolveTyS_fst]; exact resolverResultTy_not_infer s t0
    cases hw : write_ty_to_tables (resolveTyS s stB t0).2 n (resolveTyS s stB t0).1 with
    | none =>
      rw [write_ty_to_tables_none hw] at hni
      exact absurd hni (by simp)
    | some stC =>
      rw [hw] at h
      simp only [] at h
      have hweff := write_ty_to_tables_effect hw
      have hCscr : stC.scratch = stB.scratch := by
        rw [hweff.1, resolveTyS_scratch]
      have hCtnt : stC.tables.node_types =
          insertA st.tables.node_types n (resolverResultTy s t0) := by
        rw [hweff.2.1, resolveTyS_fst]
        have : (resolveTyS s stB t0).2.tables = stB.tables := resolveTyS_tables s stB t0
        rw [this, hBtnt]
      have hCtis : stC.tables.item_substs = st.tables.item_substs := by
        rw [hweff.2.2.1, resolveTyS_tables, hBtis]
      have hCttr : stC.tables.type_relative_path_defs =
          (match lookupA st.scratch.type_relative_path_defs n with
           | some d => insertA st.tables.type_relative_path_defs n d
           | none => st.tables.type_relative_path_defs) := by
        rw [hweff.2.2.2.2.1, resolveTyS_tables, hBttr]
      have hCtmeth : ∀ k : MethodCall, k.autoderef = 0 ∨ k.expr_id ≠ n →
          lookupA stC.tables.method_map k = lookupA st.tables.method_map k := by
        intro k hk
        rw [hweff.2.2.2.1, resolveTyS_tables]
        exact (hBmeth k hk).2
      have hCis : lookupA stC.scratch.item_substs n =
          lookupA st.scratch.item_substs n := by
        rw [hCscr, hBis]
      cases his : lookupA st.scratch.item_substs n with
      | none =>
        rw [hCis, his] at h
        simp only [Option.some.injEq] at h
        subst h
        refine ⟨?_, ?_, ?_, ?_, ?_, ?_, ⟨t0, hnt0, hCtnt⟩, ?_, ?_⟩
        · rw [hCscr, hBnt]
        · rw [hCscr, hBis]
        · rw [hCscr, hBadj]
        · rw [hCscr, hBtr]
        · intro k hk
          exact ⟨by rw [hCscr]; exact (hBmeth k hk).1, hCtmeth k hk⟩
        · rw [hCttr]
        · simp only []
          rw [hCtis]
        · intro k hk
          rw [hCscr]
          exact heff.2.2.2.2.2.2.2.2 k (by rw [heffA.2.2.2.1]; exact hk)
      | some l =>
        rw [hCis, his] at h
        simp only [] at h
        have hq1 : (resolveSubstsS s stC l).1 = resolverResultSubsts s l :=
          resolveSubstsS_fst s l stC
        have hQscr : (resolveSubstsS s stC l).2.scratch = stB.scratch := by
          rw [resolveSubstsS_scratch, hCscr]
        have hQtab : (resolveSubstsS s stC l).2.tables = stC.tables :=
          resolveSubstsS_tables s l stC
        by_cases hnoop : is_noop (resolverResultSubsts s l)
        · rw [hq1, if_pos hnoop] at h
          simp only [Option.some.injEq] at h
          subst h
          refine ⟨?_, ?_, ?_, ?_, ?_, ?_, ⟨t0, hnt0, ?_⟩, ?_, ?_⟩
          · rw [hQscr, hBnt]
          · rw [hQscr, hBis]
          · rw [hQscr, hBadj]
          · rw [hQscr, hBtr]
          · intro k hk
            exact ⟨by rw [hQscr]; exact (hBmeth k hk).1,
              by rw [hQtab]; exact hCtmeth k hk⟩
          · rw [hQtab, hCttr]
          · rw [hQtab, hCtnt]
          · simp only []
            rw [hQtab, if_pos hnoop, hCtis]
          · intro k hk
            rw [hQscr]
            exact heff.2.2.2.2.2.2.2.2 k (by rw [heffA.2.2.2.1]; exact hk)
        · rw [hq1, if_neg hnoop] at h
          have hsni : substsNeedInfer (resolverResultSubsts s l) = false :=
            resolverResultSubsts_not_infer s l
          rw [hsni] at h
          simp only [Bool.false_eq_true, if_false, Option.some.injEq] at h
          subst h
          refine ⟨?_, ?_, ?_, ?_, ?_, ?_, ⟨t0, hnt0, ?_⟩, ?_, ?_⟩
          · simp only [hQscr]; rw [hBnt]
          · simp only [hQscr]; rw [hBis]
          · simp only [hQscr]; rw [hBadj]
          · simp only [hQscr]; rw [hBtr]
          · intro k hk
            exact ⟨by simp only [hQscr]; exact (hBmeth k hk).1,
              by simp only [hQtab]; exact hCtmeth k hk⟩
          · simp only [hQtab]; rw [hCttr]
          · simp only [hQtab]; rw [hCtnt]
          · simp only [hQtab, hq1]
            rw [if_neg hnoop, hCtis]
          · intro k hk
            simp only [hQscr]
            exact heff.2.2.2.2.2.2.2.2 k (by rw [heffA.2.2.2.1]; exact hk)

/-! Success of `visit_node_id` when the node has a scratch type. -/

theorem visit_node_id_isSome (s : InferState) (n : Nat) (st : WbState)
    (h : (node_ty st n).isSome = true) : (visit_node_id s n st).isSome = true := by
  unfold visit_node_id
  simp only []
  have heffA := export_path_def_effect n st
  set stA := export_path_def n st with hstA
  have heff := visit_adjustments_effect s n stA
  set stB := visit_adjustments s n stA with hstB
  have hnteq : node_ty stB n = node_ty st n := by
    unfold node_ty
    rw [heff.1, heffA.1]
  obtain ⟨t0, ht0⟩ := Option.isSome_iff_exists.mp h
  rw [hnteq, ht0]
  simp only []
  have hni : (resolveTyS s stB t0).1.needsInfer = false := by
    rw [resolveTyS_fst]; exact resolverResultTy_not_infer s t0
  cases hw : write_ty_to_tables (resolveTyS s stB t0).2 n (resolveTyS s stB t0).1 with
  | none =>
    rw [write_ty_to_tables_none hw] at hni
    exact absurd hni (by simp)
  | some stC =>
    simp only []
    cases his : lookupA stC.scratch.item_substs n with
    | none => rfl
    | some l =>
      simp only []
      have hq1 : (resolveSubstsS s stC l).1 = resolverResultSubsts s l :=
        resolveSubstsS_fst s l stC
      rw [hq1]
      by_cases hnoop : is_noop (resolverResultSubsts s l)
      · rw [if_pos hnoop]; rfl
      · rw [if_neg hnoop, resolverResultSubsts_not_infer s l]
        simp

/-! Small helper lemmas about expressions and the scalar rule. -/

theorem Expr.id_mem_ids (e : Expr) : e.id ∈ e.ids := by
  cases e <;> simp [Expr.id, Expr.ids]

theorem visit_method_map_entry_scratch_self (s : InferState) (mc : MethodCall)
    (st : WbState) :
    lookupA (visit_method_map_entry s mc st).scratch.method_map mc = none := by
  rw [visit_method_map_entry_scratch]
  simp [lookupA_removeA]

theorem visit_method_map_entry_scratch_ne (s : InferState) (mc k : MethodCall)
    (st : WbState) (h : k ≠ mc) :
    lookupA (visit_method_map_entry s mc st).scratch.method_map k =
      lookupA st.scratch.method_map k := by
  rw [visit_method_map_entry_scratch]
  simp [lookupA_removeA, h]

theorem fix_scalar_binop_cases (s : InferState) (st : WbState) (eid : Nat)
    (lhs rhs : Expr) (isAssign : Bool) (op : BinOpKind) (st2 : WbState)
    (h : fix_scalar_binop s st eid lhs rhs isAssign op = some st2) :
    st2 = st ∨ st2 = removeScratchMethod st (MethodCall.expr eid) ∨
    st2 = removeScratchAdjustment (removeScratchMethod st (MethodCall.expr eid))
      lhs.id := by
  unfold fix_scalar_binop at h
  cases h1 : node_ty st lhs.id with
  | none => rw [h1] at h; exact absurd h (by simp)
  | some tl =>
    rw [h1] at h
    cases h2 : node_ty st rhs.id with
    | none => rw [h2] at h; exact absurd h (by simp)
    | some tr =>
      rw [h2] at h
      simp only [] at h
      by_cases hsc : ((resolve_type_vars_if_possible s tl).is_scalar && (resolve_type_vars_if_possible s tr).is_scalar) = true
      · rw [if_pos hsc] at h
        cases isAssign with
        | true =>
          simp only [if_pos rfl, Option.some.injEq] at h
          right; right; exact h.symm
        | false =>
          simp only [Bool.false_eq_true, if_false, Option.some.injEq] at h
          by_cases hbv : op.is_by_value
          · rw [if_neg (by simp [hbv])] at h
            right; left; exact h.symm
          · rw [if_pos (by simp [Bool.not_eq_true] at hbv ⊢; exact hbv)] at h
            right; right; exact h.symm
      · rw [if_neg hsc] at h
        simp only [Option.some.injEq] at h
        left; exact h.symm

theorem fix_scalar_cases (s : InferState) (e : Expr) (st st2 : WbState)
    (h : fix_scalar_builtin_expr s e st = some st2) :
    st2 = st ∨ st2 = removeScratchMethod st (MethodCall.expr e.id) ∨
    ∃ m, m ∈ e.ids ∧
      st2 = removeScratchAdjustment (removeScratchMethod st (MethodCall.expr e.id)) m := by
  cases e with
  | lit i =>
    simp only [fix_scalar_builtin_expr, Option.some.injEq] at h
    left; exact h.symm
  | unary i uop inner =>
    simp only [fix_scalar_builtin_expr] at h
    cases uop with
    | unDeref =>
      simp only [Option.some.injEq] at h
      left; exact h.symm
    | unNeg =>
      cases h1 : node_ty st inner.id with
      | none => rw [h1] at h; exact absurd h (by simp)
      | some t0 =>
        rw [h1] at h
        simp only [] at h
        by_cases hsc : (resolve_type_vars_if_possible s t0).is_scalar = true
        · rw [if_pos hsc] at h
          simp only [Option.some.injEq] at h
          right; left; rw [← h]; rfl
        · rw [if_neg hsc] at h
          simp only [Option.some.injEq] at h
          left; exact h.symm
    | unNot =>
      cases h1 : node_ty st inner.id with
      | none => rw [h1] at h; exact absurd h (by simp)
      | some t0 =>
        rw [h1] at h
        simp only [] at h
        by_cases hsc : (resolve_type_vars_if_possible s t0).is_scalar = true
        · rw [if_pos hsc] at h
          simp only [Option.some.injEq] at h
          right; left; rw [← h]; rfl
        · rw [if_neg hsc] at h
          simp only [Option.some.injEq] at h
          left; exact h.symm
  | binary i op lhs rhs =>
    simp only [fix_scalar_builtin_expr] at h
    rcases fix_scalar_binop_cases s st i lhs rhs false op st2 h with h2 | h2 | h2
    · left; exact h2
    · right; left; exact h2
    · right; right
      exact ⟨lhs.id, by simp [Expr.ids, Expr.id_mem_ids], h2⟩
  | assignOp i op lhs rhs =>
    simp only [fix_scalar_builtin_expr] at h
    rcases fix_scalar_binop_cases s st i lhs rhs true op st2 h with h2 | h2 | h2
    · left; exact h2
    · right; left; exact h2
    · right; right
      exact ⟨lhs.id, by simp [Expr.ids, Expr.id_mem_ids], h2⟩

theorem fix_scalar_effect (s : InferState) (e : Expr) (st st2 : WbState)
    (h : fix_scalar_builtin_expr s e st = some st2) :
    st2.scratch.node_types = st.scratch.node_types ∧
    st2.scratch.item_substs = st.scratch.item_substs ∧
    st2.scratch.type_relative_path_defs = st.scratch.type_relative_path_defs ∧
    st2.tables = st.tables ∧
    (∀ k : MethodCall, lookupA st.scratch.method_map k = none →
      lookupA st2.scratch.method_map k = none) ∧
    (∀ k : MethodCall, k ≠ MethodCall.expr e.id →
      lookupA st2.scratch.method_map k = lookupA st.scratch.method_map k) ∧
    (∀ m, lookupA st.scratch.adjustments m = none →
      lookupA st2.scratch.adjustments m = none) ∧
    (∀ m, m ∉ e.ids →
      lookupA st2.scratch.adjustments m = lookupA st.scratch.adjustments m) := by
  rcases fix_scalar_cases s e st st2 h with h2 | h2 | ⟨m, hm, h2⟩
  · subst h2
    exact ⟨rfl, rfl, rfl, rfl, fun _ hk => hk, fun _ _ => rfl, fun _ hk => hk,
      fun _ _ => rfl⟩
  · subst h2
    refine ⟨rfl, rfl, rfl, rfl, ?_, ?_, fun _ hk => hk, fun _ _ => rfl⟩
    · intro k hk
      simp only [removeScratchMethod, lookupA_removeA]
      by_cases h3 : k = MethodCall.expr e.id
      · rw [if_pos h3]
      · rw [if_neg h3]; exact hk
    · intro k hk
      simp only [removeScratchMethod, lookupA_removeA]
      rw [if_neg hk]
  · subst h2
    refine ⟨rfl, rfl, rfl, rfl, ?_, ?_, ?_, ?_⟩
    · intro k hk
      simp only [removeScratchAdjustment, removeScratchMethod, lookupA_removeA]
      by_cases h3 : k = MethodCall.expr e.id
      · rw [if_pos h3]
      · rw [if_neg h3]; exact hk
    · intro k hk
      simp only [removeScratchAdjustment, removeScratchMethod, lookupA_removeA]
      rw [if_neg hk]
    · intro m2 hk
      simp only [removeScratchAdjustment, removeScratchMethod, lookupA_removeA]
      by_cases h3 : m2 = m
      · rw [if_pos h3]
      · rw [if_neg h3]; exact hk
    · intro m2 hk
      have h3 : m2 ≠ m := fun he => hk (he ▸ hm)
      simp only [removeScratchAdjustment, removeScratchMethod, lookupA_removeA]
      rw [if_neg h3]

/-! Effect of the per-node part of the expression visit. -/

theorem visit_expr_pre_effect (s : InferState) (e : Expr) (st st2 : WbState)
    (h : visit_expr_pre s e st = some st2) :
    st2.scratch.node_types = st.scratch.node_types ∧
    st2.scratch.item_substs = st.scratch.item_substs ∧
    (∀ k : MethodCall, lookupA st.scratch.method_map k = none →
      lookupA st2.scratch.method_map k = none) ∧
    (∀ m, lookupA st.scratch.adjustments m = none →
      lookupA st2.scratch.adjustments m = none) ∧
    (∀ m, lookupA st.scratch.type_relative_path_defs m = none →
      lookupA st2.scratch.type_relative_path_defs m = none) ∧
    lookupA st2.scratch.adjustments e.id = none ∧
    lookupA st2.scratch.method_map (MethodCall.expr e.id) = none ∧
    lookupA st2.scratch.type_relative_path_defs e.id = none ∧
    (∀ k : MethodCall, k.expr_id ∉ e.ids →
      lookupA st2.scratch.method_map k = lookupA st.scratch.method_map k ∧
      lookupA st2.tables.method_map k = lookupA st.tables.method_map k) ∧
    (∀ m, m ∉ e.ids →
      lookupA st2.scratch.adjustments m = lookupA st.scratch.adjustments m) ∧
    (∀ m, m ≠ e.id →
      lookupA st2.scratch.type_relative_path_defs m =
        lookupA st.scratch.type_relative_path_defs m ∧
      lookupA st2.tables.type_relative_path_defs m =
        lookupA st.tables.type_relative_path_defs m) ∧
    ((∀ n t, lookupA st.tables.node_types n = some t → t.needsInfer = false) →
      ∀ n t, lookupA st2.tables.node_types n = some t → t.needsInfer = false) ∧
    (∀ d, lookupA st.scratch.type_relative_path_defs e.id = some d →
      lookupA st2.tables.type_relative_path_defs e.id = some d) ∧
    (lookupA st.scratch.type_relative_path_defs e.id = none →
      lookupA st2.tables.type_relative_path_defs e.id =
        lookupA st.tables.type_relative_path_defs e.id) := by
  unfold visit_expr_pre at h
  cases hf : fix_scalar_builtin_expr s e st with
  | none => rw [hf] at h; exact absurd h (by simp)
  | some st1 =>
    rw [hf] at h
    simp only [] at h
    cases hv : visit_node_id s e.id st1 with
    | none => rw [hv] at h; exact absurd h (by simp)
    | some stN =>
      rw [hv] at h
      simp only [Option.some.injEq] at h
      subst h
      have Fe := fix_scalar_effect s e st st1 hf
      have Ve := visit_node_id_effect s e.id st1 stN hv
      have hM := visit_method_map_entry_scratch s (MethodCall.expr e.id) stN
      have hidm : e.id ∈ e.ids := Expr.id_mem_ids e
      refine ⟨?_, ?_, ?_, ?_, ?_, ?_, ?_, ?_, ?_, ?_, ?_, ?_, ?_, ?_⟩
      · simp only [hM]
        rw [Ve.1, Fe.1]
      · simp only [hM]
        rw [Ve.2.1, Fe.2.1]
      · intro k hk
        simp only [hM, lookupA_removeA]
        by_cases h3 : k = MethodCall.expr e.id
        · rw [if_pos h3]
        · rw [if_neg h3]
          exact Ve.2.2.2.2.2.2.2.2 k (Fe.2.2.2.2.1 k hk)
      · intro m hk
        simp only [hM]
        rw [Ve.2.2.1]
        simp only [lookupA_removeA]
        by_cases h3 : m = e.id
        · rw [if_pos h3]
        · rw [if_neg h3]
          exact Fe.2.2.2.2.2.2.1 m hk
      · intro m hk
        simp only [hM]
        rw [Ve.2.2.2.1]
        simp only [lookupA_removeA]
        by_cases h3 : m = e.id
        · rw [if_pos h3]
        · rw [if_neg h3]
          rw [Fe.2.2.1]
          exact hk
      · simp only [hM]
        rw [Ve.2.2.1]
        simp [lookupA_removeA]
      · exact visit_method_map_entry_scratch_self s (MethodCall.expr e.id) stN
      · simp only [hM]
        rw [Ve.2.2.2.1]
        simp [lookupA_removeA]
      · intro k hk
        have hne : k.expr_id ≠ e.id := fun he => hk (he ▸ hidm)
        have hkm : k ≠ MethodCall.expr e.id := by
          intro he
          exact hne (by rw [he]; rfl)
        constructor
        · rw [visit_method_map_entry_scratch_ne s _ k stN hkm,
            (Ve.2.2.2.2.1 k (Or.inr hne)).1, Fe.2.2.2.2.2.1 k hkm]
        · rw [visit_method_map_entry_tables_method_ne s _ k stN hkm,
            (Ve.2.2.2.2.1 k (Or.inr hne)).2, Fe.2.2.2.1]
      · intro m hk
        have hne : m ≠ e.id := fun he => hk (he ▸ hidm)
        simp only [hM]
        rw [Ve.2.2.1]
        simp only [lookupA_removeA]
        rw [if_neg hne]
        exact Fe.2.2.2.2.2.2.2 m hk
      · intro m hk
        constructor
        · simp only [hM]
          rw [Ve.2.2.2.1]
          simp only [lookupA_removeA]
          rw [if_neg hk, Fe.2.2.1]
        · rw [visit_method_map_entry_tables_trpd, Ve.2.2.2.2.2.1]
          cases hd : lookupA st1.scratch.type_relative_path_defs e.id with
          | none =>
            simp only []
            rw [Fe.2.2.2.1]
          | some d =>
            simp only [lookupA_insertA]
            rw [if_neg hk, Fe.2.2.2.1]
      · intro hInv n t hlook
        rw [visit_method_map_entry_tables_node_types] at hlook
        obtain ⟨t0, hnt0, hins⟩ := Ve.2.2.2.2.2.2.1
        rw [hins] at hlook
        simp only [lookupA_insertA] at hlook
        by_cases h3 : n = e.id
        · rw [if_pos h3] at hlook
          simp only [Option.some.injEq] at hlook
          subst hlook
          exact resolverResultTy_not_infer s t0
        · rw [if_neg h3] at hlook
          rw [Fe.2.2.2.1] at hlook
          exact hInv n t hlook
      · intro d hd
        rw [visit_method_map_entry_tables_trpd, Ve.2.2.2.2.2.1]
        have hd1 : lookupA st1.scratch.type_relative_path_defs e.id = some d := by
          rw [Fe.2.2.1]; exact hd
        rw [hd1]
        simp [lookupA_insertA]
      · intro hd
        rw [visit_method_map_entry_tables_trpd, Ve.2.2.2.2.2.1]
        have hd1 : lookupA st1.scratch.type_relative_path_defs e.id = none := by
          rw [Fe.2.2.1]; exact hd
        rw [hd1]
        simp only []
        rw [Fe.2.2.2.1]

/-! Effect of the full expression walk: scratch categories only shrink, the
node-type and substitution scratch categories are untouched, entries away
from the visited subtree are untouched, the final node types stay free of
inference variables, and the adjustment, method and path-def entries of every
visited node are drained. -/

theorem visit_expr_effect (s : InferState) : ∀ (e : Expr) (st st2 : WbState),
    visit_expr s e st = some st2 →
    st2.scratch.node_types = st.scratch.node_types ∧
    st2.scratch.item_substs = st.scratch.item_substs ∧
    (∀ k : MethodCall, lookupA st.scratch.method_map k = none →
      lookupA st2.scratch.method_map k = none) ∧
    (∀ m, lookupA st.scratch.adjustments m = none →
      lookupA st2.scratch.adjustments m = none) ∧
    (∀ m, lookupA st.scratch.type_relative_path_defs m = none →
      lookupA st2.scratch.type_relative_path_defs m = none) ∧
    (∀ k : MethodCall, k.expr_id ∉ e.ids →
      lookupA st2.scratch.method_map k = lookupA st.scratch.method_map k ∧
      lookupA st2.tables.method_map k = lookupA st.tables.method_map k) ∧
    (∀ m, m ∉ e.ids →
      lookupA st2.scratch.adjustments m = lookupA st.scratch.adjustments m) ∧
    (∀ m, m ∉ e.ids →
      lookupA st2.scratch.type_relative_path_defs m =
        lookupA st.scratch.type_relative_path_defs m ∧
      lookupA st2.tables.type_relative_path_defs m =
        lookupA st.tables.type_relative_path_defs m) ∧
    ((∀ n t, lookupA st.tables.node_types n = some t → t.needsInfer = false) →
      ∀ n t, lookupA st2.tables.node_types n = some t → t.needsInfer = false) ∧
    (∀ n, n ∈ e.ids →
      lookupA st2.scratch.adjustments n = none ∧
      lookupA st2.scratch.method_map (MethodCall.expr n) = none ∧
      lookupA st2.scratch.type_relative_path_defs n = none) := by
  intro e
  induction e with
  | lit i =>
    intro st st2 h
    simp only [visit_expr] at h
    obtain ⟨P1, P2, P3, P4, P5, P6, P7, P8, P9, P10, P11, P12, P13, P14⟩ :=
      visit_expr_pre_effect s (.lit i) st st2 h
    refine ⟨P1, P2, P3, P4, P5, P9, P10, ?_, P12, ?_⟩
    · intro m hm
      have : m ≠ i := by simpa [Expr.ids] using hm
      exact P11 m this
    · intro n hn
      have hni : n = i := by simpa [Expr.ids] using hn
      subst hni
      exact ⟨P6, P7, P8⟩
  | unary i uop inner ih =>
    intro st st2 h
    simp only [visit_expr] at h
    cases hp : visit_expr_pre s (.unary i uop inner) st with
    | none => rw [hp] at h; exact absurd h (by simp)
    | some stP =>
      rw [hp] at h
      simp only [] at h
      obtain ⟨P1, P2, P3, P4, P5, P6, P7, P8, P9, P10, P11, P12, P13, P14⟩ :=
        visit_expr_pre_effect s (.unary i uop inner) st stP hp
      obtain ⟨L1, L2, L3, L4, L5, L6, L7, L8, L9, L10⟩ := ih stP st2 h
      have hsub : ∀ n, n ∈ inner.ids → n ∈ (Expr.unary i uop inner).ids := by
        intro n hn; simp [Expr.ids, hn]
      refine ⟨?_, ?_, ?_, ?_, ?_, ?_, ?_, ?_, ?_, ?_⟩
      · rw [L1, P1]
      · rw [L2, P2]
      · intro k hk
        exact L3 k (P3 k hk)
      · intro m hm
        exact L4 m (P4 m hm)
      · intro m hm
        exact L5 m (P5 m hm)
      · intro k hk
        have hk2 : k.expr_id ∉ inner.ids := fun hc => hk (hsub _ hc)
        obtain ⟨La, Lb⟩ := L6 k hk2
        obtain ⟨Pa, Pb⟩ := P9 k hk
        exact ⟨by rw [La, Pa], by rw [Lb, Pb]⟩
      · intro m hm
        have hm2 : m ∉ inner.ids := fun hc => hm (hsub _ hc)
        rw [L7 m hm2, P10 m hm]
      · intro m hm
        have hm2 : m ∉ inner.ids := fun hc => hm (hsub _ hc)
        have hmi : m ≠ i := by
          intro he; apply hm; simp [Expr.ids, he]
        obtain ⟨La, Lb⟩ := L8 m hm2
        obtain ⟨Pa, Pb⟩ := P11 m hmi
        exact ⟨by rw [La, Pa], by rw [Lb, Pb]⟩
      · intro hInv
        exact L9 (P12 hInv)
      · intro n hn
        rcases (by simpa [Expr.ids] using hn : n = i ∨ n ∈ inner.ids) with hni | hni
        · subst hni
          exact ⟨L4 _ P6, L3 _ P7, L5 _ P8⟩
        · exact L10 n hni
  | binary i op lhs rhs ihl ihr =>
    intro st st2 h
    simp only [visit_expr] at h
    cases hp : visit_expr_pre s (.binary i op lhs rhs) st with
    | none => rw [hp] at h; exact absurd h (by simp)
    | some stP =>
      rw [hp] at h
      simp only [] at h
      cases hL : visit_expr s lhs stP with
      | none => rw [hL] at h; exact absurd h (by simp)
      | some stL =>
        rw [hL] at h
        simp only [] at h
        obtain ⟨P1, P2, P3, P4, P5, P6, P7, P8, P9, P10, P11, P12, P13, P14⟩ :=
          visit_expr_pre_effect s (.binary i op lhs rhs) st stP hp
        obtain ⟨L1, L2, L3, L4, L5, L6, L7, L8, L9, L10⟩ := ihl stP stL hL
        obtain ⟨R1, R2, R3, R4, R5, R6, R7, R8, R9, R10⟩ := ihr stL st2 h
        have hsubl : ∀ n, n ∈ lhs.ids → n ∈ (Expr.binary i op lhs rhs).ids := by
          intro n hn; simp [Expr.ids, hn]
        have hsubr : ∀ n, n ∈ rhs.ids → n ∈ (Expr.binary i op lhs rhs).ids := by
          intro n hn; simp [Expr.ids, hn]
        refine ⟨?_, ?_, ?_, ?_, ?_, ?_, ?_, ?_, ?_, ?_⟩
        · rw [R1, L1, P1]
        · rw [R2, L2, P2]
        · intro k hk
          exact R3 k (L3 k (P3 k hk))
        · intro m hm
          exact R4 m (L4 m (P4 m hm))
        · intro m hm
          exact R5 m (L5 m (P5 m hm))
        · intro k hk
          have hkl : k.expr_id ∉ lhs.ids := fun hc => hk (hsubl _ hc)
          have hkr : k.expr_id ∉ rhs.ids := fun hc => hk (hsubr _ hc)
          obtain ⟨Ra, Rb⟩ := R6 k hkr
          obtain ⟨La, Lb⟩ := L6 k hkl
          obtain ⟨Pa, Pb⟩ := P9 k hk
          exact ⟨by rw [Ra, La, Pa], by rw [Rb, Lb, Pb]⟩
        · intro m hm
          have hml : m ∉ lhs.ids := fun hc => hm (hsubl _ hc)
          have hmr : m ∉ rhs.ids := fun hc => hm (hsubr _ hc)
          rw [R7 m hmr, L7 m hml, P10 m hm]
        · intro m hm
          have hml : m ∉ lhs.ids := fun hc => hm (hsubl _ hc)
          have hmr : m ∉ rhs.ids := fun hc => hm (hsubr _ hc)
          have hmi : m ≠ i := by
            intro he; apply hm; simp [Expr.ids, he]
          obtain ⟨Ra, Rb⟩ := R8 m hmr
          obtain ⟨La, Lb⟩ := L8 m hml
          obtain ⟨Pa, Pb⟩ := P11 m hmi
          exact ⟨by rw [Ra, La, Pa], by rw [Rb, Lb, Pb]⟩
        · intro hInv
          exact R9 (L9 (P12 hInv))
        · intro n hn
          rcases (by simpa [Expr.ids] using hn :
              n = i ∨ n ∈ lhs.ids ∨ n ∈ rhs.ids) with hni | hni | hni
          · subst hni
            exact ⟨R4 _ (L4 _ P6), R3 _ (L3 _ P7), R5 _ (L5 _ P8)⟩
          · obtain ⟨Da, Db, Dc⟩ := L10 n hni
            exact ⟨R4 _ Da, R3 _ Db, R5 _ Dc⟩
          · exact R10 n hni
  | assignOp i op lhs rhs ihl ihr =>
    intro st st2 h
    simp only [visit_expr] at h
    cases hp : visit_expr_pre s (.assignOp i op lhs rhs) st with
    | none => rw [hp] at h; exact absurd h (by simp)
    | some stP =>
      rw [hp] at h
      simp only [] at h
      cases hL : visit_expr s lhs stP with
      | none => rw [hL] at h; exact absurd h (by simp)
      | some stL =>
        rw [hL] at h
        simp only [] at h
        obtain ⟨P1, P2, P3, P4, P5, P6, P7, P8, P9, P10, P11, P12, P13, P14⟩ :=
          visit_expr_pre_effect s (.assignOp i op lhs rhs) st stP hp
        obtain ⟨L1, L2, L3, L4, L5, L6, L7, L8, L9, L10⟩ := ihl stP stL hL
        obtain ⟨R1, R2, R3, R4, R5, R6, R7, R8, R9, R10⟩ := ihr stL st2 h
        have hsubl : ∀ n, n ∈ lhs.ids → n ∈ (Expr.assignOp i op lhs rhs).ids := by
          intro n hn; simp [Expr.ids, hn]
        have hsubr : ∀ n, n ∈ rhs.ids → n ∈ (Expr.assignOp i op lhs rhs).ids := by
          intro n hn; simp [Expr.ids, hn]
        refine ⟨?_, ?_, ?_, ?_, ?_, ?_, ?_, ?_, ?_, ?_⟩
        · rw [R1, L1, P1]
        · rw [R2, L2, P2]
        · intro k hk
          exact R3 k (L3 k (P3 k hk))
        · intro m hm
          exact R4 m (L4 m (P4 m hm))
        · intro m hm
          exact R5 m (L5 m (P5 m hm))
        · intro k hk
          have hkl : k.expr_id ∉ lhs.ids := fun hc => hk (hsubl _ hc)
          have hkr : k.expr_id ∉ rhs.ids := fun hc => hk (hsubr _ hc)
          obtain ⟨Ra, Rb⟩ := R6 k hkr
          obtain ⟨La, Lb⟩ := L6 k hkl
          obtain ⟨Pa, Pb⟩ := P9 k hk
          exact ⟨by rw [Ra, La, Pa], by rw [Rb, Lb, Pb]⟩
        · intro m hm
          have hml : m ∉ lhs.ids := fun hc => hm (hsubl _ hc)
          have hmr : m ∉ rhs.ids := fun hc => hm (hsubr _ hc)
          rw [R7 m hmr, L7 m hml, P10 m hm]
        · intro m hm
          have hml : m ∉ lhs.ids := fun hc => hm (hsubl _ hc)
          have hmr : m ∉ rhs.ids := fun hc => hm (hsubr _ hc)
          have hmi : m ≠ i := by
            intro he; apply hm; simp [Expr.ids, he]
          obtain ⟨Ra, Rb⟩ := R8 m hmr
          obtain ⟨La, Lb⟩ := L8 m hml
          obtain ⟨Pa, Pb⟩ := P11 m hmi
          exact ⟨by rw [Ra, La, Pa], by rw [Rb, Lb, Pb]⟩
        · intro hInv
          exact R9 (L9 (P12 hInv))
        · intro n hn
          rcases (by simpa [Expr.ids] using hn :
              n = i ∨ n ∈ lhs.ids ∨ n ∈ rhs.ids) with hni | hni | hni
          · subst hni
            exact ⟨R4 _ (L4 _ P6), R3 _ (L3 _ P7), R5 _ (L5 _ P8)⟩
          · obtain ⟨Da, Db, Dc⟩ := L10 n hni
            exact ⟨R4 _ Da, R3 _ Db, R5 _ Dc⟩
          · exact R10 n hni

/-! Tracking of one associated-path definition entry through the walk.
The entry for node `n` is either still in scratch with its original value, or
already transferred (scratch empty, final holding the value); visiting `n`
moves it to the transferred state and nothing moves it back. -/

theorem visit_expr_pre_trpd (s : InferState) (e : Expr) (st st2 : WbState)
    (n d : Nat) (h : visit_expr_pre s e st = some st2) :
    ((lookupA st.scratch.type_relative_path_defs n = none ∧
      lookupA st.tables.type_relative_path_defs n = some d) →
     (lookupA st2.scratch.type_relative_path_defs n = none ∧
      lookupA st2.tables.type_relative_path_defs n = some d)) ∧
    ((lookupA st.scratch.type_relative_path_defs n = some d ∨
      (lookupA st.scratch.type_relative_path_defs n = none ∧
       lookupA st.tables.type_relative_path_defs n = some d)) →
     (lookupA st2.scratch.type_relative_path_defs n = some d ∨
      (lookupA st2.scratch.type_relative_path_defs n = none ∧
       lookupA st2.tables.type_relative_path_defs n = some d))) ∧
    ((lookupA st.scratch.type_relative_path_defs n = some d ∨
      (lookupA st.scratch.type_relative_path_defs n = none ∧
       lookupA st.tables.type_relative_path_defs n = some d)) → n = e.id →
     (lookupA st2.scratch.type_relative_path_defs n = none ∧
      lookupA st2.tables.type_relative_path_defs n = some d)) := by
  obtain ⟨P1, P2, P3, P4, P5, P6, P7, P8, P9, P10, P11, P12, P13, P14⟩ :=
    visit_expr_pre_effect s e st st2 h
  by_cases hni : n = e.id
  · subst hni
    have hdone : (lookupA st.scratch.type_relative_path_defs e.id = some d ∨
        (lookupA st.scratch.type_relative_path_defs e.id = none ∧
         lookupA st.tables.type_relative_path_defs e.id = some d)) →
        (lookupA st2.scratch.type_relative_path_defs e.id = none ∧
         lookupA st2.tables.type_relative_path_defs e.id = some d) := by
      rintro (hA | ⟨hB1, hB2⟩)
      · exact ⟨P8, P13 d hA⟩
      · refine ⟨P5 e.id hB1, ?_⟩
        rw [P14 hB1]
        exact hB2
    refine ⟨?_, ?_, fun hI _ => hdone hI⟩
    · intro hD
      exact hdone (Or.inr hD)
    · intro hI
      exact Or.inr (hdone hI)
  · obtain ⟨Fa, Fb⟩ := P11 n hni
    refine ⟨?_, ?_, fun _ he => absurd he hni⟩
    · intro hD
      rw [Fa, Fb]
      exact hD
    · intro hI
      rw [Fa, Fb]
      exact hI
  
theorem visit_expr_trpd (s : InferState) (n d : Nat) :
    ∀ (e : Expr) (st st2 : WbState), visit_expr s e st = some st2 →
    ((lookupA st.scratch.type_relative_path_defs n = none ∧
      lookupA st.tables.type_relative_path_defs n = some d) →
     (lookupA st2.scratch.type_relative_path_defs n = none ∧
      lookupA st2.tables.type_relative_path_defs n = some d)) ∧
    ((lookupA st.scratch.type_relative_path_defs n = some d ∨
      (lookupA st.scratch.type_relative_path_defs n = none ∧
       lookupA st.tables.type_relative_path_defs n = some d)) →
     (lookupA st2.scratch.type_relative_path_defs n = some d ∨
      (lookupA st2.scratch.type_relative_path_defs n = none ∧
       lookupA st2.tables.type_relative_path_defs n = some d))) ∧
    ((lookupA st.scratch.type_relative_path_defs n = some d ∨
      (lookupA st.scratch.type_relative_path_defs n = none ∧
       lookupA st.tables.type_relative_path_defs n = some d)) → n ∈ e.ids →
     (lookupA st2.scratch.type_relative_path_defs n = none ∧
      lookupA st2.tables.type_relative_path_defs n = some d)) := by
  intro e
  induction e with
  | lit i =>
    intro st st2 h
    simp only [visit_expr] at h
    obtain ⟨Ha, Hb, Hc⟩ := visit_expr_pre_trpd s (.lit i) st st2 n d h
    refine ⟨Ha, Hb, ?_⟩
    intro hI hn
    exact Hc hI (by simpa [Expr.ids] using hn)
  | unary i uop inner ih =>
    intro st st2 h
    simp only [visit_expr] at h
    cases hp : visit_expr_pre s (.unary i uop inner) st with
    | none => rw [hp] at h; exact absurd h (by simp)
    | some stP =>
      rw [hp] at h
      simp only [] at h
      obtain ⟨Pa, Pb, Pc⟩ := visit_expr_pre_trpd s (.unary i uop inner) st stP n d hp
      obtain ⟨Ia, Ib, Ic⟩ := ih stP st2 h
      refine ⟨fun hD => Ia (Pa hD), fun hI => Ib (Pb hI), ?_⟩
      intro hI hn
      rcases (by simpa [Expr.ids] using hn : n = i ∨ n ∈ inner.ids) with hni | hni
      · exact Ia (Pc hI hni)
      · exact Ic (Pb hI) hni
  | binary i op lhs rhs ihl ihr =>
    intro st st2 h
    simp only [visit_expr] at h
    cases hp : visit_expr_pre s (.binary i op lhs rhs) st with
    | none => rw [hp] at h; exact absurd h (by simp)
    | some stP =>
      rw [hp] at h
      simp only [] at h
      cases hL : visit_expr s lhs stP with
      | none => rw [hL] at h; exact absurd h (by simp)
      | some stL =>
        rw [hL] at h
        simp only [] at h
        obtain ⟨Pa, Pb, Pc⟩ :=
          visit_expr_pre_trpd s (.binary i op lhs rhs) st stP n d hp
        obtain ⟨La, Lb, Lc⟩ := ihl stP stL hL
        obtain ⟨Ra, Rb, Rc⟩ := ihr stL st2 h
        refine ⟨fun hD => Ra (La (Pa hD)), fun hI => Rb (Lb (Pb hI)), ?_⟩
        intro hI hn
        rcases (by simpa [Expr.ids] using hn :
            n = i ∨ n ∈ lhs.ids ∨ n ∈ rhs.ids) with hni | hni | hni
        · exact Ra (La (Pc hI hni))
        · exact Ra (Lc (Pb hI) hni)
        · exact Rc (Lb (Pb hI)) hni
  | assignOp i op lhs rhs ihl ihr =>
    intro st st2 h
    simp only [visit_expr] at h
    cases hp : visit_expr_pre s (.assignOp i op lhs rhs) st with
    | none => rw [hp] at h; exact absurd h (by simp)
    | some stP =>
      rw [hp] at h
      simp only [] at h
      cases hL : visit_expr s lhs stP with
      | none => rw [hL] at h; exact absurd h (by simp)
      | some stL =>
        rw [hL] at h
        simp only [] at h
        obtain ⟨Pa, Pb, Pc⟩ :=
          visit_expr_pre_trpd s (.assignOp i op lhs rhs) st stP n d hp
        obtain ⟨La, Lb, Lc⟩ := ihl stP stL hL
        obtain ⟨Ra, Rb, Rc⟩ := ihr stL st2 h
        refine ⟨fun hD => Ra (La (Pa hD)), fun hI => Rb (Lb (Pb hI)), ?_⟩
        intro hI hn
        rcases (by simpa [Expr.ids] using hn :
            n = i ∨ n ∈ lhs.ids ∨ n ∈ rhs.ids) with hni | hni | hni
        · exact Ra (La (Pc hI hni))
        · exact Ra (Lc (Pb hI) hni)
        · exact Rc (Lb (Pb hI)) hni

/-! Effect of the argument-node loop. -/

theorem visit_node_id_noResidue (s : InferState) (n : Nat) (st st2 : WbState)
    (h : visit_node_id s n st = some st2)
    (hInv : ∀ m t, lookupA st.tables.node_types m = some t → t.needsInfer = false) :
    ∀ m t, lookupA st2.tables.node_types m = some t → t.needsInfer = false := by
  obtain ⟨t0, hnt0, hins⟩ := (visit_node_id_effect s n st st2 h).2.2.2.2.2.2.1
  intro m t hm
  rw [hins] at hm
  simp only [lookupA_insertA] at hm
  by_cases h3 : m = n
  · rw [if_pos h3] at hm
    simp only [Option.some.injEq] at hm
    subst hm
    exact resolverResultTy_not_infer s t0
  · rw [if_neg h3] at hm
    exact hInv m t hm

theorem visit_arg_ids_effect (s : InferState) : ∀ (L : List Nat) (st st2 : WbState),
    visit_arg_ids s L st = some st2 →
    st2.scratch.node_types = st.scratch.node_types ∧
    st2.scratch.item_substs = st.scratch.item_substs ∧
    (∀ k : MethodCall, lookupA st.scratch.method_map k = none →
      lookupA st2.scratch.method_map k = none) ∧
    (∀ m, lookupA st.scratch.adjustments m = none →
      lookupA st2.scratch.adjustments m = none) ∧
    (∀ m, lookupA st.scratch.type_relative_path_defs m = none →
      lookupA st2.scratch.type_relative_path_defs m = none) ∧
    ((∀ m t, lookupA st.tables.node_types m = some t → t.needsInfer = false) →
      ∀ m t, lookupA st2.tables.node_types m = some t → t.needsInfer = false) := by
  intro L
  induction L with
  | nil =>
    intro st st2 h
    simp only [visit_arg_ids, Option.some.injEq] at h
    subst h
    exact ⟨rfl, rfl, fun _ hk => hk, fun _ hk => hk, fun _ hk => hk, fun hI => hI⟩
  | cons n rest ih =>
    intro st st2 h
    simp only [visit_arg_ids] at h
    cases hv : visit_node_id s n st with
    | none => rw [hv] at h; exact absurd h (by simp)
    | some stA =>
      rw [hv] at h
      simp only [] at h
      obtain ⟨I1, I2, I3, I4, I5, I6⟩ := ih stA st2 h
      have Ve := visit_node_id_effect s n st stA hv
      refine ⟨?_, ?_, ?_, ?_, ?_, ?_⟩
      · rw [I1, Ve.1]
      · rw [I2, Ve.2.1]
      · intro k hk
        exact I3 k (Ve.2.2.2.2.2.2.2.2 k hk)
      · intro m hm
        refine I4 m ?_
        rw [Ve.2.2.1]
        simp only [lookupA_removeA]
        by_cases h3 : m = n
        · rw [if_pos h3]
        · rw [if_neg h3]; exact hm
      · intro m hm
        refine I5 m ?_
        rw [Ve.2.2.2.1]
        simp only [lookupA_removeA]
        by_cases h3 : m = n
        · rw [if_pos h3]
        · rw [if_neg h3]; exact hm
      · intro hI
        exact I6 (visit_node_id_noResidue s n st stA hv hI)

/-! Effect of the opaque-type externalizer on the state. -/

theorem convert_anon_region_not_infer (f2b : List (Nat × Region))
    (hgood : ∀ did r, lookupA f2b did = some r → r.needsInfer = false)
    (r r2 : Region) (errs : List Region)
    (h : convert_anon_region f2b r = some (r2, errs)) : r2.needsInfer = false := by
  cases r with
  | reStatic => simp [convert_anon_region] at h; rw [← h.1]; rfl
  | reEmpty => simp [convert_anon_region] at h; rw [← h.1]; rfl
  | reEarlyBound i nm => simp [convert_anon_region] at h; rw [← h.1]; rfl
  | reLateBound dp br => simp [convert_anon_region] at h; rw [← h.1]; rfl
  | reScope c => simp [convert_anon_region] at h; rw [← h.1]; rfl
  | reSkolemized i br => simp [convert_anon_region] at h; rw [← h.1]; rfl
  | reVar v => simp [convert_anon_region] at h
  | reErased => simp [convert_anon_region] at h
  | reFree sc br =>
    cases br with
    | brAnon i => simp [convert_anon_region] at h; rw [← h.1]; rfl
    | brNamed did nm =>
      simp only [convert_anon_region] at h
      cases hl : lookupA f2b did with
      | none =>
        rw [hl] at h
        simp only [Option.some.injEq, Prod.mk.injEq] at h
        rw [← h.1]; rfl
      | some rr =>
        rw [hl] at h
        simp only [Option.some.injEq, Prod.mk.injEq] at h
        rw [← h.1]
        exact hgood did rr hl

theorem foldAnonRegions_not_infer (f2b : List (Nat × Region))
    (hgood : ∀ did r, lookupA f2b did = some r → r.needsInfer = false) :
    ∀ (t : Ty) (out : Ty) (errs : List Region), t.needsInfer = false →
    foldAnonRegions f2b t = some (out, errs) → out.needsInfer = false := by
  intro t
  induction t with
  | tyRef r u ih =>
    intro out errs hni h
    simp only [foldAnonRegions] at h
    cases hc : convert_anon_region f2b r with
    | none => rw [hc] at h; exact absurd h (by simp)
    | some p =>
      rw [hc] at h
      simp only [] at h
      cases hf : foldAnonRegions f2b u with
      | none => rw [hf] at h; exact absurd h (by simp)
      | some q =>
        rw [hf] at h
        simp only [Option.some.injEq, Prod.mk.injEq] at h
        rw [← h.1]
        simp only [Ty.needsInfer] at hni ⊢
        rcases Bool.or_eq_false_iff.mp hni with ⟨hn1, hn2⟩
        rw [convert_anon_region_not_infer f2b hgood r p.1 p.2 (by rw [hc]),
          ih q.1 q.2 hn2 (by rw [hf])]
        rfl
  | tyTuple2 a b iha ihb =>
    intro out errs hni h
    simp only [foldAnonRegions] at h
    cases hfa : foldAnonRegions f2b a with
    | none => rw [hfa] at h; exact absurd h (by simp)
    | some p =>
      rw [hfa] at h
      simp only [] at h
      cases hfb : foldAnonRegions f2b b with
      | none => rw [hfb] at h; exact absurd h (by simp)
      | some q =>
        rw [hfb] at h
        simp only [Option.some.injEq, Prod.mk.injEq] at h
        rw [← h.1]
        simp only [Ty.needsInfer] at hni ⊢
        rcases Bool.or_eq_false_iff.mp hni with ⟨hn1, hn2⟩
        rw [iha p.1 p.2 hn1 (by rw [hfa]), ihb q.1 q.2 hn2 (by rw [hfb])]
        rfl
  | tyBool => intro out errs hni h; simp [foldAnonRegions] at h; rw [← h.1]; exact hni
  | tyChar => intro out errs hni h; simp [foldAnonRegions] at h; rw [← h.1]; exact hni
  | tyInt => intro out errs hni h; simp [foldAnonRegions] at h; rw [← h.1]; exact hni
  | tyUint => intro out errs hni h; simp [foldAnonRegions] at h; rw [← h.1]; exact hni
  | tyFloat => intro out errs hni h; simp [foldAnonRegions] at h; rw [← h.1]; exact hni
  | tyErr => intro out errs hni h; simp [foldAnonRegions] at h; rw [← h.1]; exact hni
  | tyInfer v => intro out errs hni h; simp [Ty.needsInfer] at hni
  | tyAdt nm => intro out errs hni h; simp [foldAnonRegions] at h; rw [← h.1]; exact hni

theorem visit_anon_type_entry_tables (s : InferState) (f2b : List (Nat × Region))
    (st : WbState) (nid : Nat) (cty : Ty) (st2 : WbState)
    (h : visit_anon_type_entry s f2b st nid cty = some st2) :
    st2.scratch = st.scratch ∧
    ∃ out errs, foldAnonRegions f2b (resolverResultTy s cty) = some (out, errs) ∧
      st2.tables.node_types = insertA st.tables.node_types nid out ∧
      st2.tables.item_substs = st.tables.item_substs ∧
      st2.tables.method_map = st.tables.method_map ∧
      st2.tables.type_relative_path_defs = st.tables.type_relative_path_defs := by
  unfold visit_anon_type_entry at h
  simp only [] at h
  rw [resolveTyS_fst s st cty] at h
  cases hf : foldAnonRegions f2b (resolverResultTy s cty) with
  | none => rw [hf] at h; exact absurd h (by simp)
  | some q =>
    rw [hf] at h
    simp only [] at h
    by_cases he : q.2.isEmpty
    · rw [if_pos he] at h
      simp only [Option.some.injEq] at h
      subst h
      refine ⟨by simp [resolveTyS_scratch], q.1, q.2, by simp [hf], ?_, ?_, ?_, ?_⟩ <;>
        simp [resolveTyS_tables]
    · rw [if_neg he] at h
      simp only [Option.some.injEq] at h
      subst h
      refine ⟨by simp [resolveTyS_scratch], q.1, q.2, by simp [hf], ?_, ?_, ?_, ?_⟩ <;>
        simp [resolveTyS_tables]

theorem visit_anon_types_effect (s : InferState) (f2b : List (Nat × Region)) :
    ∀ (L : List (Nat × Ty)) (st st2 : WbState),
    visit_anon_types s f2b L st = some st2 →
    st2.scratch = st.scratch ∧
    (∀ nid, nid ∉ L.map Prod.fst →
      lookupA st2.tables.node_types nid = lookupA st.tables.node_types nid) ∧
    ((L.map Prod.fst).Nodup → ∀ nid cty, (nid, cty) ∈ L →
      ∃ out errs, foldAnonRegions f2b (resolverResultTy s cty) = some (out, errs) ∧
        lookupA st2.tables.node_types nid = some out) ∧
    ((∀ did r, lookupA f2b did = some r → r.needsInfer = false) →
      (∀ m t, lookupA st.tables.node_types m = some t → t.needsInfer = false) →
      ∀ m t, lookupA st2.tables.node_types m = some t → t.needsInfer = false) := by
  intro L
  induction L with
  | nil =>
    intro st st2 h
    simp only [visit_anon_types, Option.some.injEq] at h
    subst h
    exact ⟨rfl, fun _ _ => rfl, by simp, fun _ hI => hI⟩
  | cons p rest ih =>
    obtain ⟨nid0, cty0⟩ := p
    intro st st2 h
    simp only [visit_anon_types] at h
    cases he : visit_anon_type_entry s f2b st nid0 cty0 with
    | none => rw [he] at h; exact absurd h (by simp)
    | some stE =>
      rw [he] at h
      simp only [] at h
      obtain ⟨I1, I2, I3, I4⟩ := ih stE st2 h
      obtain ⟨E1, out0, errs0, Ef, Ein, _, _, _⟩ :=
        visit_anon_type_entry_tables s f2b st nid0 cty0 stE he
      refine ⟨by rw [I1, E1], ?_, ?_, ?_⟩
      · intro nid hnid
        have h1 : nid ∉ rest.map Prod.fst := by
          intro hc; apply hnid; simp [hc]
        have h2 : nid ≠ nid0 := by
          intro hc; apply hnid; simp [hc]
        rw [I2 nid h1, Ein]
        simp only [lookupA_insertA]
        rw [if_neg h2]
      · intro hnodup nid cty hmem
        have hnd2 : (rest.map Prod.fst).Nodup := by
          simpa using hnodup.of_cons
        rcases List.mem_cons.mp hmem with heq | hmem2
        · injection heq with hq1 hq2
          subst hq1
          subst hq2
          refine ⟨out0, errs0, Ef, ?_⟩
          have hnotin : nid ∉ rest.map Prod.fst := by
            have h6 := hnodup
            simp only [List.map_cons] at h6
            exact (List.nodup_cons.mp h6).1
          rw [I2 nid hnotin, Ein]
          simp [lookupA_insertA]
        · exact I3 hnd2 nid cty hmem2
      · intro hgood hI
        refine I4 hgood ?_
        intro m t hm
        rw [Ein] at hm
        simp only [lookupA_insertA] at hm
        by_cases h3 : m = nid0
        · rw [if_pos h3] at hm
          simp only [Option.some.injEq] at hm
          subst hm
          exact foldAnonRegions_not_infer f2b hgood (resolverResultTy s cty0)
            out0 errs0 (resolverResultTy_not_infer s cty0) Ef
        · rw [if_neg h3] at hm
          exact hI m t hm

/-! Properties of the free-to-bound region map construction. -/

theorem build_free_to_bound_aux_good :
    ∀ (L : List Kind) (i : Nat) (acc f2b : List (Nat × Region)),
    (∀ did r, lookupA acc did = some r → r.needsInfer = false) →
    build_free_to_bound_aux i L acc = some f2b →
    (∀ did r, lookupA f2b did = some r → r.needsInfer = false) := by
  intro L
  induction L with
  | nil =>
    intro i acc f2b hacc h
    simp only [build_free_to_bound_aux, Option.some.injEq] at h
    subst h
    exact hacc
  | cons k rest ih =>
    intro i acc f2b hacc h
    simp only [build_free_to_bound_aux] at h
    cases k with
    | kTy t =>
      simp only [Kind.as_region] at h
      exact ih (i + 1) acc f2b hacc h
    | kRegion r =>
      simp only [Kind.as_region] at h
      cases r with
      | reFree sc br =>
        cases br with
        | brNamed did nm =>
          refine ih (i + 1) _ f2b ?_ h
          intro did2 r2 h2
          simp only [lookupA_insertA] at h2
          by_cases h3 : did2 = did
          · rw [if_pos h3] at h2
            simp only [Option.some.injEq] at h2
            subst h2
            rfl
          · rw [if_neg h3] at h2
            exact hacc did2 r2 h2
        | brAnon j => exact absurd h (by simp)
      | reStatic => exact absurd h (by simp)
      | reEmpty => exact absurd h (by simp)
      | reEarlyBound j nm => exact absurd h (by simp)
      | reLateBound dp br => exact absurd h (by simp)
      | reScope c => exact absurd h (by simp)
      | reSkolemized j br => exact absurd h (by simp)
      | reVar v => exact absurd h (by simp)
      | reErased => exact absurd h (by simp)

theorem writeback_cx_new_good (anon : List (Nat × Ty)) (fs : List Kind)
    (f2b : List (Nat × Region)) (h : writeback_cx_new anon fs = some f2b) :
    ∀ did r, lookupA f2b did = some r → r.needsInfer = false := by
  unfold writeback_cx_new at h
  by_cases he : anon.isEmpty
  · rw [if_pos he] at h
    simp only [Option.some.injEq] at h
    subst h
    intro did r h2
    simp [lookupA] at h2
  · rw [if_neg he] at h
    exact build_free_to_bound_aux_good fs 0 [] f2b (by intro did r h2; simp [lookupA] at h2) h

theorem build_free_to_bound_aux_bad :
    ∀ (L : List Kind) (i : Nat) (acc : List (Nat × Region)) (r : Region),
    Kind.kRegion r ∈ L → r.isNamedFree = false →
    build_free_to_bound_aux i L acc = none := by
  intro L
  induction L with
  | nil =>
    intro i acc r hmem
    simp at hmem
  | cons k rest ih =>
    intro i acc r hmem hbad
    rcases List.mem_cons.mp hmem with heq | hmem2
    · subst heq
      simp only [build_free_to_bound_aux, Kind.as_region]
      cases r with
      | reFree sc br =>
        cases br with
        | brNamed did nm => simp [Region.isNamedFree] at hbad
        | brAnon j => rfl
      | reStatic => rfl
      | reEmpty => rfl
      | reEarlyBound j nm => rfl
      | reLateBound dp br => rfl
      | reScope c => rfl
      | reSkolemized j br => rfl
      | reVar v => rfl
      | reErased => rfl
    · simp only [build_free_to_bound_aux]
      cases k with
      | kTy t =>
        simp only [Kind.as_region]
        exact ih (i + 1) acc r hmem2 hbad
      | kRegion r2 =>
        simp only [Kind.as_region]
        cases r2 with
        | reFree sc br =>
          cases br with
          | brNamed did nm => exact ih (i + 1) _ r hmem2 hbad
          | brAnon j => rfl
        | reStatic => rfl
        | reEmpty => rfl
        | reEarlyBound j nm => rfl
        | reLateBound dp br => rfl
        | reScope c => rfl
        | reSkolemized j br => rfl
        | reVar v => rfl
        | reErased => rfl

/-! Decomposition of a successful writeback run into its phases. -/

theorem resolve_type_vars_in_body_elim (env : Env) (st st2 : WbState)
    (h : resolve_type_vars_in_body env st = some st2) :
    ∃ f2b stA stB stC,
      writeback_cx_new env.anon_types env.free_substs = some f2b ∧
      visit_arg_ids env.infer env.body_args st = some stA ∧
      visit_expr env.infer env.body stA = some stB ∧
      visit_anon_types env.infer f2b env.anon_types stB = some stC ∧
      st2 = { stC with
        tables := { stC.tables with tainted_by_errors := env.infcx_tainted } } := by
  unfold resolve_type_vars_in_body at h
  cases h1 : writeback_cx_new env.anon_types env.free_substs with
  | none => rw [h1] at h; exact absurd h (by simp)
  | some f2b =>
    rw [h1] at h
    simp only [] at h
    cases h2 : visit_arg_ids env.infer env.body_args st with
    | none => rw [h2] at h; exact absurd h (by simp)
    | some stA =>
      rw [h2] at h
      simp only [] at h
      cases h3 : visit_expr env.infer env.body stA with
      | none => rw [h3] at h; exact absurd h (by simp)
      | some stB =>
        rw [h3] at h
        simp only [] at h
        cases h4 : visit_anon_types env.infer f2b env.anon_types stB with
        | none => rw [h4] at h; exact absurd h (by simp)
        | some stC =>
          rw [h4] at h
          simp only [Option.some.injEq] at h
          exact ⟨f2b, stA, stB, stC, rfl, rfl, h3, h4, h.symm⟩

theorem resolve_type_vars_in_body_new_none (env : Env) (st : WbState)
    (h : writeback_cx_new env.anon_types env.free_substs = none) :
    resolve_type_vars_in_body env st = none := by
  unfold resolve_type_vars_in_body
  rw [h]

theorem build_free_to_bound_aux_early :
    ∀ (L : List Kind) (i : Nat) (acc f2b : List (Nat × Region)),
    (∀ did r, lookupA acc did = some r → ∃ j name, r = Region.reEarlyBound j name) →
    build_free_to_bound_aux i L acc = some f2b →
    (∀ did r, lookupA f2b did = some r → ∃ j name, r = Region.reEarlyBound j name) := by
  intro L
  induction L with
  | nil =>
    intro i acc f2b hacc h
    simp only [build_free_to_bound_aux, Option.some.injEq] at h
    subst h
    exact hacc
  | cons k rest ih =>
    intro i acc f2b hacc h
    simp only [build_free_to_bound_aux] at h
    cases k with
    | kTy t =>
      simp only [Kind.as_region] at h
      exact ih (i + 1) acc f2b hacc h
    | kRegion r =>
      simp only [Kind.as_region] at h
      cases r with
      | reFree sc br =>
        cases br with
        | brNamed did nm =>
          refine ih (i + 1) _ f2b ?_ h
          intro did2 r2 h2
          simp only [lookupA_insertA] at h2
          by_cases h3 : did2 = did
          · rw [if_pos h3] at h2
            simp only [Option.some.injEq] at h2
            exact ⟨i, nm, h2.symm⟩
          · rw [if_neg h3] at h2
            exact hacc did2 r2 h2
        | brAnon j => exact absurd h (by simp)
      | reStatic => exact absurd h (by simp)
      | reEmpty => exact absurd h (by simp)
      | reEarlyBound j nm => exact absurd h (by simp)
      | reLateBound dp br => exact absurd h (by simp)
      | reScope c => exact absurd h (by simp)
      | reSkolemized j br => exact absurd h (by simp)
      | reVar v => exact absurd h (by simp)
      | reErased => exact absurd h (by simp)

theorem writeback_cx_new_early (anon : List (Nat × Ty)) (fs : List Kind)
    (f2b : List (Nat × Region)) (h : writeback_cx_new anon fs = some f2b) :
    ∀ did r, lookupA f2b did = some r → ∃ j name, r = Region.reEarlyBound j name := by
  unfold writeback_cx_new at h
  by_cases he : anon.isEmpty
  · rw [if_pos he] at h
    simp only [Option.some.injEq] at h
    subst h
    intro did r h2
    simp [lookupA] at h2
  · rw [if_neg he] at h
    exact build_free_to_bound_aux_early fs 0 [] f2b
      (by intro did r h2; simp [lookupA] at h2) h

/-! The claims. -/

/-- C1: Scalar simplification.  For a unary negate/not expression whose
operand's resolved type is scalar, writeback removes that expression's
method-call resolution entry; for a binary or compound-assignment expression
where both operands' resolved types are scalar, it removes the expression's
method-call resolution entry and additionally the left operand's adjustment
entry — unconditionally for compound assignment, and only when the operator
is not by-value for plain binary expressions; in all other cases
(dereference, literal, non-scalar operands) nothing is removed. -/
theorem c1_scalar_simplification (s : InferState) (st : WbState) :
    (∀ (eid : Nat) (uop : UnOp) (inner : Expr) (t0 : Ty),
      node_ty st inner.id = some t0 → (uop = UnOp.unNeg ∨ uop = UnOp.unNot) →
      fix_scalar_builtin_expr s (.unary eid uop inner) st =
        some (if (resolve_type_vars_if_possible s t0).is_scalar = true
              then removeScratchMethod st (MethodCall.expr eid)
              else st)) ∧
    (∀ (eid : Nat) (inner : Expr),
      fix_scalar_builtin_expr s (.unary eid UnOp.unDeref inner) st = some st) ∧
    (∀ (eid : Nat) (op : BinOpKind) (lhs rhs : Expr) (tl tr : Ty),
      node_ty st lhs.id = some tl → node_ty st rhs.id = some tr →
      fix_scalar_builtin_expr s (.binary eid op lhs rhs) st =
        some (if ((resolve_type_vars_if_possible s tl).is_scalar &&
                  (resolve_type_vars_if_possible s tr).is_scalar) = true
              then (if op.is_by_value = true
                    then removeScratchMethod st (MethodCall.expr eid)
                    else removeScratchAdjustment
                      (removeScratchMethod st (MethodCall.expr eid)) lhs.id)
              else st)) ∧
    (∀ (eid : Nat) (op : BinOpKind) (lhs rhs : Expr) (tl tr : Ty),
      node_ty st lhs.id = some tl → node_ty st rhs.id = some tr →
      fix_scalar_builtin_expr s (.assignOp eid op lhs rhs) st =
        some (if ((resolve_type_vars_if_possible s tl).is_scalar &&
                  (resolve_type_vars_if_possible s tr).is_scalar) = true
              then removeScratchAdjustment
                (removeScratchMethod st (MethodCall.expr eid)) lhs.id
              else st)) ∧
    (∀ i : Nat, fix_scalar_builtin_expr s (.lit i) st = some st) := by
  refine ⟨?_, ?_, ?_, ?_, fun i => rfl⟩
  · intro eid uop inner t0 hnt huop
    rcases huop with h | h <;> subst h <;>
      (simp only [fix_scalar_builtin_expr]
       rw [hnt]
       simp only []
       by_cases hsc : (resolve_type_vars_if_possible s t0).is_scalar = true
       · rw [if_pos hsc, if_pos hsc]
       · rw [if_neg hsc, if_neg hsc])
  · intro eid inner
    rfl
  · intro eid op lhs rhs tl tr hl hr
    simp only [fix_scalar_builtin_expr, fix_scalar_binop]
    rw [hl, hr]
    simp only []
    by_cases hsc : ((resolve_type_vars_if_possible s tl).is_scalar &&
        (resolve_type_vars_if_possible s tr).is_scalar) = true
    · rw [if_pos hsc, if_pos hsc]
      simp only [Bool.false_eq_true, if_false]
      by_cases hbv : op.is_by_value = true
      · rw [if_pos hbv]
        simp [hbv]
      · rw [if_neg hbv]
        simp only [Bool.not_eq_true] at hbv
        simp [hbv]
    · rw [if_neg hsc, if_neg hsc]
  · intro eid op lhs rhs tl tr hl hr
    simp only [fix_scalar_builtin_expr, fix_scalar_binop]
    rw [hl, hr]
    simp only []
    by_cases hsc : ((resolve_type_vars_if_possible s tl).is_scalar &&
        (resolve_type_vars_if_possible s tr).is_scalar) = true
    · rw [if_pos hsc, if_pos hsc]
      simp
    · rw [if_neg hsc, if_neg hsc]

/-- Witness for C1: a comparison (by-reference) operator on two scalar
operands loses both its method entry and the left operand's adjustment. -/
theorem c1_scalar_simplification_witness :
    node_ty c1St 1 = some Ty.tyInt ∧ node_ty c1St 2 = some Ty.tyInt ∧
    fix_scalar_builtin_expr exInfer
        (.binary 10 BinOpKind.biLt (.lit 1) (.lit 2)) c1St =
      some (removeScratchAdjustment
        (removeScratchMethod c1St (MethodCall.expr 10)) 1) := by
  refine ⟨by decide, by decide, ?_⟩
  exact (c1_scalar_simplification exInfer c1St).2.2.1 10 BinOpKind.biLt
    (Expr.lit 1) (Expr.lit 2) Ty.tyInt Ty.tyInt (by decide) (by decide)

/-- C2: Folding-engine failure behaviour.  When fully-resolve fails on a type
position, the error type is substituted and an ambiguous-type diagnostic
emitted, the diagnostic being skipped — though the error substitution still
happens — when the session already has errors (in particular when the
function was already tainted by an earlier error); when fully-resolve fails
on a region position, the static region is substituted and no diagnostic is
emitted. -/
theorem c2_folding_failure (s : InferState) (st : WbState) (t : Ty) (r : Region) :
    (fullyResolveTy s t = none →
      resolveTyS s st t =
        (Ty.tyErr,
         if st.hasErrors then st
         else { st with hasErrors := true, ambigDiags := st.ambigDiags ++ [t] })) ∧
    (fullyResolveRegion s r = none →
      resolveRegionS s st r = (Region.reStatic, st)) := by
  constructor
  · intro h
    unfold resolveTyS
    rw [h]
    by_cases he : st.hasErrors
    · rw [if_pos he, if_pos he]
    · rw [if_neg he, if_neg he]
  · intro h
    unfold resolveRegionS
    rw [h]

/-- Witness for C2: an unsolved type variable folds to the error type with a
diagnostic, an unsolved region variable folds to the static region silently. -/
theorem c2_folding_failure_witness :
    fullyResolveTy exInfer (Ty.tyInfer 0) = none ∧
    fullyResolveRegion exInfer (Region.reVar 0) = none ∧
    resolveTyS exInfer c2St (Ty.tyInfer 0) =
      (Ty.tyErr,
       { c2St with hasErrors := true, ambigDiags := [Ty.tyInfer 0] }) ∧
    resolveRegionS exInfer c2St (Region.reVar 0) = (Region.reStatic, c2St) := by
  refine ⟨by decide, by decide, ?_, ?_⟩
  · exact (c2_folding_failure exInfer c2St (Ty.tyInfer 0) (Region.reVar 0)).1
      (by decide)
  · exact (c2_folding_failure exInfer c2St (Ty.tyInfer 0) (Region.reVar 0)).2
      (by decide)

/-- C3 (counterexample): the claim that the scratch node-type category is
drained by writeback is false — `node_ty` is a read-only query, so after a
completed run the visited node's scratch node-type entry is still present. -/
theorem c3_counterexample :
    (resolve_type_vars_in_body c3Env c3St).map
        (fun w => lookupA w.scratch.node_types 1) = some (some Ty.tyInt) ∧
    1 ∈ c3Env.body.ids := by
  constructor
  · decide
  · decide

/-- C3 (amended): after writeback the scratch adjustment, method-call and
associated-path categories are empty for every node visited by the tree walk
— each transfer removes the scratch entry — while the node-type and
substitution scratch categories are read without removal and survive
unchanged. -/
theorem c3_drain_amended (env : Env) (st st2 : WbState)
    (h : resolve_type_vars_in_body env st = some st2) :
    st2.scratch.node_types = st.scratch.node_types ∧
    st2.scratch.item_substs = st.scratch.item_substs ∧
    (∀ n, n ∈ env.body.ids →
      lookupA st2.scratch.adjustments n = none ∧
      lookupA st2.scratch.method_map (MethodCall.expr n) = none ∧
      lookupA st2.scratch.type_relative_path_defs n = none) := by
  obtain ⟨f2b, stA, stB, stC, h1, h2, h3, h4, h5⟩ :=
    resolve_type_vars_in_body_elim env st st2 h
  obtain ⟨A1, A2, A3, A4, A5, A6⟩ :=
    visit_arg_ids_effect env.infer env.body_args st stA h2
  have E := visit_expr_effect env.infer env.body stA stB h3
  have hanon := (visit_anon_types_effect env.infer f2b env.anon_types stB stC h4).1
  have hscr : st2.scratch = stB.scratch := by
    rw [h5]
    exact hanon
  refine ⟨?_, ?_, ?_⟩
  · rw [hscr, E.1, A1]
  · rw [hscr, E.2.1, A2]
  · intro n hn
    obtain ⟨Da, Db, Dc⟩ := E.2.2.2.2.2.2.2.2.2 n hn
    rw [hscr]
    exact ⟨Da, Db, Dc⟩

/-- Witness for C3's amended theorem at a concrete completed run. -/
theorem c3_drain_amended_witness :
    resolve_type_vars_in_body c3Env c3St = some c3Out ∧
    (c3Out.scratch.node_types = c3St.scratch.node_types ∧
     c3Out.scratch.item_substs = c3St.scratch.item_substs ∧
     (∀ n, n ∈ c3Env.body.ids →
       lookupA c3Out.scratch.adjustments n = none ∧
       lookupA c3Out.scratch.method_map (MethodCall.expr n) = none ∧
       lookupA c3Out.scratch.type_relative_path_defs n = none)) := by
  refine ⟨by decide, ?_⟩
  exact c3_drain_amended c3Env c3St c3Out (by decide)

/-- C9: at every node the tree walk visits, writeback transfers the node's
type-relative associated-path definition entry unchanged — no folding, the
same value `d` — from the scratch table to the final table, removing it from
scratch. -/
theorem c9_path_def_transfer (s : InferState) (e : Expr) (st st2 : WbState)
    (n d : Nat) (h : visit_expr s e st = some st2) (hmem : n ∈ e.ids)
    (hentry : lookupA st.scratch.type_relative_path_defs n = some d) :
    lookupA st2.scratch.type_relative_path_defs n = none ∧
    lookupA st2.tables.type_relative_path_defs n = some d :=
  (visit_expr_trpd s n d e st st2 h).2.2 (Or.inl hentry) hmem

/-- Witness for C9: a node with path-definition 42 ends with the entry moved
verbatim into the final table and gone from scratch. -/
theorem c9_path_def_transfer_witness :
    visit_expr exInfer (Expr.lit 1) c9St = some c9Out ∧
    1 ∈ (Expr.lit 1).ids ∧
    lookupA c9St.scratch.type_relative_path_defs 1 = some 42 ∧
    (lookupA c9Out.scratch.type_relative_path_defs 1 = none ∧
     lookupA c9Out.tables.type_relative_path_defs 1 = some 42) := by
  refine ⟨by decide, by decide, by decide, ?_⟩
  exact c9_path_def_transfer exInfer (Expr.lit 1) c9St c9Out 1 42
    (by decide) (by decide) (by decide)

/-- C6: Substitution pruning.  A node's resolved substitution list is stored
into the final table only when it is not a no-op; an identity substitution is
never persisted, so resolving an already-concrete no-op list yields an absent
final entry, and doing so twice yields an absent entry both times. -/
theorem c6_substs_pruning (s : InferState) (n : Nat) (st st1 st2 : WbState)
    (l : List Kind)
    (hsub : lookupA st.scratch.item_substs n = some l)
    (hfin : lookupA st.tables.item_substs n = none)
    (h1 : visit_node_id s n st = some st1)
    (h2 : visit_node_id s n st1 = some st2) :
    (lookupA st1.tables.item_substs n =
      if is_noop (resolverResultSubsts s l) then none
      else some (resolverResultSubsts s l)) ∧
    (is_noop (resolverResultSubsts s l) = true →
      lookupA st1.tables.item_substs n = none ∧
      lookupA st2.tables.item_substs n = none) := by
  have E1 := visit_node_id_effect s n st st1 h1
  have E2 := visit_node_id_effect s n st1 st2 h2
  have hch1 : lookupA st1.tables.item_substs n =
      if is_noop (resolverResultSubsts s l) then none
      else some (resolverResultSubsts s l) := by
    have := E1.2.2.2.2.2.2.2.1
    rw [hsub] at this
    simp only [] at this
    rw [this]
    by_cases hnoop : is_noop (resolverResultSubsts s l)
    · rw [if_pos hnoop, if_pos hnoop]
      exact hfin
    · rw [if_neg hnoop, if_neg hnoop]
      simp [lookupA_insertA]
  refine ⟨hch1, ?_⟩
  intro hnoop
  have ha : lookupA st1.tables.item_substs n = none := by
    rw [hch1, if_pos hnoop]
  refine ⟨ha, ?_⟩
  have hsub1 : lookupA st1.scratch.item_substs n = some l := by
    rw [E1.2.1]
    exact hsub
  have := E2.2.2.2.2.2.2.2.1
  rw [hsub1] at this
  simp only [] at this
  rw [this, if_pos hnoop]
  exact ha

/-- Witness for C6: an empty (identity) substitution list is never stored,
across two consecutive transfers of the same node. -/
theorem c6_substs_pruning_witness :
    lookupA c6St.scratch.item_substs 5 = some [] ∧
    lookupA c6St.tables.item_substs 5 = none ∧
    visit_node_id exInfer 5 c6St = some c6Out ∧
    visit_node_id exInfer 5 c6Out = some c6Out ∧
    (is_noop (resolverResultSubsts exInfer []) = true →
      lookupA c6Out.tables.item_substs 5 = none ∧
      lookupA c6Out.tables.item_substs 5 = none) := by
  refine ⟨by decide, by decide, by decide, by decide, ?_⟩
  exact (c6_substs_pruning exInfer 5 c6St c6Out c6Out [] (by decide) (by decide)
    (by decide) (by decide)).2

/-- C7: No-residue assertion validity.  The resolver's output never carries a
residual inference variable, so the defensive assertion in
`write_ty_to_tables` never fires — a node transfer with a scratch type always
succeeds — and after a writeback that completes without fatal error every
type in the final node-type table is free of inference variables. -/
theorem c7_no_residue (s : InferState) (env : Env) (st st2 : WbState) :
    (∀ t : Ty, (resolverResultTy s t).needsInfer = false) ∧
    (∀ (n : Nat) (stX : WbState), (node_ty stX n).isSome = true →
      (visit_node_id s n stX).isSome = true) ∧
    (st.tables.node_types = [] →
      resolve_type_vars_in_body env st = some st2 →
      ∀ n t, lookupA st2.tables.node_types n = some t → t.needsInfer = false) := by
  refine ⟨resolverResultTy_not_infer s,
    fun n stX h => visit_node_id_isSome s n stX h, ?_⟩
  intro hinit h
  obtain ⟨f2b, stA, stB, stC, h1, h2, h3, h4, h5⟩ :=
    resolve_type_vars_in_body_elim env st st2 h
  have hgood := writeback_cx_new_good env.anon_types env.free_substs f2b h1
  have hInv0 : ∀ m t, lookupA st.tables.node_types m = some t →
      t.needsInfer = false := by
    rw [hinit]
    intro m t hm
    simp [lookupA] at hm
  have hA := (visit_arg_ids_effect env.infer env.body_args st stA h2).2.2.2.2.2 hInv0
  have hB := (visit_expr_effect env.infer env.body stA stB h3).2.2.2.2.2.2.2.2.1 hA
  have hC := (visit_anon_types_effect env.infer f2b env.anon_types stB stC h4).2.2.2
    hgood hB
  subst h5
  intro n t hm
  exact hC n t hm

/-- Witness for C7 on a run whose only node type is an unresolved variable:
the error sentinel is substituted and the final table carries no residue. -/
theorem c7_no_residue_witness :
    c7St.tables.node_types = [] ∧
    resolve_type_vars_in_body c7Env c7St = some c7Out ∧
    (∀ n t, lookupA c7Out.tables.node_types n = some t →
      t.needsInfer = false) := by
  refine ⟨by decide, by decide, ?_⟩
  exact (c7_no_residue exInfer c7Env c7St c7Out).2.2 (by decide) (by decide)

/-- C4: Opaque-type externalization.  In the region rewrite, static and
empty regions pass through unchanged and a named free region present in the
free-to-bound map is replaced by the mapped region, which is always the
early-bound form of one of the function's lifetime parameters; and for every
(node, concrete type) opaque record, the resulting outside type is stored
into the final node-type entry for that node by a run of the pass (the
opaque sweep runs after the main tree walk, so its result is what remains). -/
theorem c4_opaque_externalization (env : Env) (st st2 : WbState)
    (f2b : List (Nat × Region)) (nid : Nat) (cty : Ty)
    (hf2b : writeback_cx_new env.anon_types env.free_substs = some f2b)
    (h : resolve_type_vars_in_body env st = some st2)
    (hnodup : (env.anon_types.map Prod.fst).Nodup)
    (hmem : (nid, cty) ∈ env.anon_types) :
    convert_anon_region f2b Region.reStatic = some (Region.reStatic, []) ∧
    convert_anon_region f2b Region.reEmpty = some (Region.reEmpty, []) ∧
    (∀ sc did name r2, lookupA f2b did = some r2 →
      convert_anon_region f2b (Region.reFree sc (BoundRegion.brNamed did name)) =
        some (r2, [])) ∧
    (∀ did r2, lookupA f2b did = some r2 →
      ∃ j name2, r2 = Region.reEarlyBound j name2) ∧
    (∃ out errs,
      foldAnonRegions f2b (resolverResultTy env.infer cty) = some (out, errs) ∧
      lookupA st2.tables.node_types nid = some out) := by
  refine ⟨rfl, rfl, ?_, ?_, ?_⟩
  · intro sc did name r2 h3
    simp [convert_anon_region, h3]
  · exact writeback_cx_new_early env.anon_types env.free_substs f2b hf2b
  · obtain ⟨f2b2, stA, stB, stC, h1, h2, h3, h4, h5⟩ :=
      resolve_type_vars_in_body_elim env st st2 h
    rw [hf2b] at h1
    simp only [Option.some.injEq] at h1
    subst h1
    obtain ⟨out, errs, hfold, hlook⟩ :=
      (visit_anon_types_effect env.infer f2b env.anon_types stB stC h4).2.2.1
        hnodup nid cty hmem
    subst h5
    exact ⟨out, errs, hfold, hlook⟩

/-- Witness for C4: the opaque record at node 7 mentioning the function's own
named free region is stored with that region replaced by its early-bound
form. -/
theorem c4_opaque_externalization_witness :
    writeback_cx_new c4Env.anon_types c4Env.free_substs =
      some [(3, Region.reEarlyBound 0 "a")] ∧
    resolve_type_vars_in_body c4Env c4St = some c4Out ∧
    (c4Env.anon_types.map Prod.fst).Nodup ∧
    (7, Ty.tyRef (Region.reFree 0 (BoundRegion.brNamed 3 "a")) Ty.tyBool) ∈
      c4Env.anon_types ∧
    (∃ out errs,
      foldAnonRegions [(3, Region.reEarlyBound 0 "a")]
        (resolverResultTy c4Env.infer
          (Ty.tyRef (Region.reFree 0 (BoundRegion.brNamed 3 "a")) Ty.tyBool)) =
        some (out, errs) ∧
      lookupA c4Out.tables.node_types 7 = some out) := by
  refine ⟨by decide, by decide, by decide, by decide, ?_⟩
  exact (c4_opaque_externalization c4Env c4St c4Out
    [(3, Region.reEarlyBound 0 "a")] 7
    (Ty.tyRef (Region.reFree 0 (BoundRegion.brNamed 3 "a")) Ty.tyBool)
    (by decide) (by decide) (by decide) (by decide)).2.2.2.2

/-- C5: Opaque-type rejection.  In the externalizer's region rewrite, a free
region not named in the map, and every early-bound, late-bound, scope or
skolemized region, is a user error: the offending region is reported (at the
opaque-type node, once lifted to the entry level) and the static region is
substituted as recovery; an inference-variable or erased region is a fatal
internal abort, which propagates out of the entry. -/
theorem c5_opaque_rejection (f2b : List (Nat × Region)) (s : InferState)
    (st : WbState) (nid : Nat) (cty ity : Ty) :
    (∀ sc did name, lookupA f2b did = none →
      convert_anon_region f2b (Region.reFree sc (BoundRegion.brNamed did name)) =
        some (Region.reStatic, [Region.reFree sc (BoundRegion.brNamed did name)])) ∧
    (∀ sc i, convert_anon_region f2b (Region.reFree sc (BoundRegion.brAnon i)) =
      some (Region.reStatic, [Region.reFree sc (BoundRegion.brAnon i)])) ∧
    (∀ i name, convert_anon_region f2b (Region.reEarlyBound i name) =
      some (Region.reStatic, [Region.reEarlyBound i name])) ∧
    (∀ dp br, convert_anon_region f2b (Region.reLateBound dp br) =
      some (Region.reStatic, [Region.reLateBound dp br])) ∧
    (∀ c, convert_anon_region f2b (Region.reScope c) =
      some (Region.reStatic, [Region.reScope c])) ∧
    (∀ i br, convert_anon_region f2b (Region.reSkolemized i br) =
      some (Region.reStatic, [Region.reSkolemized i br])) ∧
    (∀ v, convert_anon_region f2b (Region.reVar v) = none) ∧
    (convert_anon_region f2b Region.reErased = none) ∧
    (fullyResolveTy s cty = some ity →
      ∀ out r rest, foldAnonRegions f2b ity = some (out, r :: rest) →
      visit_anon_type_entry s f2b st nid cty =
        some { st with
          hasErrors := true,
          opaqueDiags := st.opaqueDiags ++ (r :: rest).map (fun r2 => (nid, r2)),
          tables := { st.tables with
            node_types := insertA st.tables.node_types nid out } }) ∧
    (fullyResolveTy s cty = some ity → foldAnonRegions f2b ity = none →
      visit_anon_type_entry s f2b st nid cty = none) := by
  have hres : fullyResolveTy s cty = some ity → resolveTyS s st cty = (ity, st) := by
    intro h
    unfold resolveTyS
    rw [h]
  refine ⟨?_, fun sc i => rfl, fun i name => rfl, fun dp br => rfl, fun c => rfl,
    fun i br => rfl, fun v => rfl, rfl, ?_, ?_⟩
  · intro sc did name h3
    simp [convert_anon_region, h3]
  · intro h out r rest hout
    unfold visit_anon_type_entry
    simp only []
    rw [hres h]
    simp only []
    rw [hout]
    simp only [List.isEmpty_cons, Bool.false_eq_true, if_false]
  · intro h hout
    unfold visit_anon_type_entry
    simp only []
    rw [hres h]
    simp only []
    rw [hout]

/-- Witness for C5: a scope-local region in an opaque type is reported and
replaced by the static region, an erased region aborts the entry. -/
theorem c5_opaque_rejection_witness :
    lookupA ([] : List (Nat × Region)) 3 = none ∧
    convert_anon_region [] (Region.reFree 0 (BoundRegion.brNamed 3 "a")) =
      some (Region.reStatic, [Region.reFree 0 (BoundRegion.brNamed 3 "a")]) ∧
    convert_anon_region ([] : List (Nat × Region)) (Region.reVar 0) = none ∧
    fullyResolveTy exInfer (Ty.tyRef (Region.reScope 2) Ty.tyBool) =
      some (Ty.tyRef (Region.reScope 2) Ty.tyBool) ∧
    foldAnonRegions [] (Ty.tyRef (Region.reScope 2) Ty.tyBool) =
      some (Ty.tyRef Region.reStatic Ty.tyBool, [Region.reScope 2]) ∧
    visit_anon_type_entry exInfer [] c5St 7
      (Ty.tyRef (Region.reScope 2) Ty.tyBool) = some c5Out ∧
    foldAnonRegions [] (Ty.tyRef Region.reErased Ty.tyBool) = none ∧
    visit_anon_type_entry exInfer [] c5St 7
      (Ty.tyRef Region.reErased Ty.tyBool) = none := by
  refine ⟨by decide, ?_, ?_, by decide, by decide, ?_, by decide, ?_⟩
  · exact (c5_opaque_rejection [] exInfer c5St 7 Ty.tyBool Ty.tyBool).1 0 3 "a"
      (by decide)
  · exact (c5_opaque_rejection [] exInfer c5St 7 Ty.tyBool
      Ty.tyBool).2.2.2.2.2.2.1 0
  · exact (c5_opaque_rejection [] exInfer c5St 7
      (Ty.tyRef (Region.reScope 2) Ty.tyBool)
      (Ty.tyRef (Region.reScope 2) Ty.tyBool)).2.2.2.2.2.2.2.2.1 (by decide)
      (Ty.tyRef Region.reStatic Ty.tyBool) (Region.reScope 2) [] (by decide)
  · exact (c5_opaque_rejection [] exInfer c5St 7
      (Ty.tyRef Region.reErased Ty.tyBool)
      (Ty.tyRef Region.reErased Ty.tyBool)).2.2.2.2.2.2.2.2.2 (by decide)
      (by decide)

/-- C8: Free-to-bound map construction.  The map stays empty (early return)
when there is no opaque-type record; otherwise it is built, once, from the
free substitutions at pass start; a region entry whose shape is not a named
free region is a fatal internal error, which makes the whole writeback run
abort. -/
theorem c8_free_to_bound_build (anon : List (Nat × Ty)) (fs : List Kind)
    (env : Env) (st : WbState) (r : Region) :
    (anon.isEmpty = true → writeback_cx_new anon fs = some []) ∧
    (anon.isEmpty = false →
      writeback_cx_new anon fs = build_free_to_bound_aux 0 fs []) ∧
    (anon.isEmpty = false → Kind.kRegion r ∈ fs → r.isNamedFree = false →
      writeback_cx_new anon fs = none) ∧
    (writeback_cx_new env.anon_types env.free_substs = none →
      resolve_type_vars_in_body env st = none) := by
  refine ⟨?_, ?_, ?_, resolve_type_vars_in_body_new_none env st⟩
  · intro he
    unfold writeback_cx_new
    rw [if_pos he]
  · intro he
    unfold writeback_cx_new
    rw [if_neg (by simp [he])]
  · intro he hmem hbad
    unfold writeback_cx_new
    rw [if_neg (by simp [he])]
    exact build_free_to_bound_aux_bad fs 0 [] r hmem hbad

/-- Witness for C8: with no opaque record the map is empty even with bad
substitutions; with an opaque record, a static region among the free
substitutions aborts the construction and the pass. -/
theorem c8_free_to_bound_build_witness :
    writeback_cx_new ([] : List (Nat × Ty)) [Kind.kRegion Region.reStatic] =
      some [] ∧
    c8EnvBad.anon_types.isEmpty = false ∧
    Kind.kRegion Region.reStatic ∈ c8EnvBad.free_substs ∧
    Region.reStatic.isNamedFree = false ∧
    writeback_cx_new c8EnvBad.anon_types c8EnvBad.free_substs = none ∧
    resolve_type_vars_in_body c8EnvBad c8St = none := by
  refine ⟨?_, by decide, by decide, by decide, ?_, ?_⟩
  · exact (c8_free_to_bound_build [] [Kind.kRegion Region.reStatic] c8EnvBad c8St
      Region.reStatic).1 (by decide)
  · exact (c8_free_to_bound_build c8EnvBad.anon_types c8EnvBad.free_substs
      c8EnvBad c8St Region.reStatic).2.2.1 (by decide) (by decide) (by decide)
  · exact (c8_free_to_bound_build c8EnvBad.anon_types c8EnvBad.free_substs
      c8EnvBad c8St Region.reStatic).2.2.2 (by decide)

theorem resolve_type_vars_if_possible_unsolved (s : InferState) (v : Nat)
    (hv : lookupA s.tySol v = none) :
    resolve_type_vars_if_possible s (Ty.tyInfer v) = Ty.tyInfer v := by
  unfold resolve_type_vars_if_possible substTy
  rw [hv]

/-- When the scalar rule leaves the state unchanged, the per-node part of the
visit — which runs the rule first, then the node transfer, then the node's
own method-map transfer — moves the expression's method entry, folded, from
scratch into the final table. -/
theorem visit_expr_pre_method_transfer (s : InferState) (e : Expr)
    (st stP : WbState) (m : MethodCallee)
    (hfix : fix_scalar_builtin_expr s e st = some st)
    (hm : lookupA st.scratch.method_map (MethodCall.expr e.id) = some m)
    (hp : visit_expr_pre s e st = some stP) :
    lookupA stP.scratch.method_map (MethodCall.expr e.id) = none ∧
    lookupA stP.tables.method_map (MethodCall.expr e.id) =
      some ⟨m.def_id, resolverResultTy s m.ty, resolverResultSubsts s m.substs⟩ := by
  unfold visit_expr_pre at hp
  rw [hfix] at hp
  simp only [] at hp
  cases hvn : visit_node_id s e.id st with
  | none => rw [hvn] at hp; exact absurd hp (by simp)
  | some stN =>
    rw [hvn] at hp
    simp only [Option.some.injEq] at hp
    have VN := visit_node_id_effect s e.id st stN hvn
    have hmN : lookupA stN.scratch.method_map (MethodCall.expr e.id) = some m := by
      rw [(VN.2.2.2.2.1 (MethodCall.expr e.id) (Or.inl rfl)).1]
      exact hm
    constructor
    · rw [← hp]
      exact visit_method_map_entry_scratch_self s (MethodCall.expr e.id) stN
    · rw [← hp]
      exact visit_method_map_entry_tables_method_some s (MethodCall.expr e.id)
        stN m hmN

/-- C10: for a unary, binary or compound-assignment operator expression in
which an operand's type is still an unresolved inference variable at the
time of the best-effort resolution — hence not scalar — the scalar rule
removes nothing, and the expression's method-call entry is then transferred
into the final table by the normal per-node method-map transfer, which runs
after the simplification rule for the same expression. -/
theorem c10_unresolved_operand_method_kept (s : InferState) (st : WbState)
    (v : Nat) (hv : lookupA s.tySol v = none) :
    (∀ (eid : Nat) (uop : UnOp) (inner : Expr) (m : MethodCallee)
       (st2 : WbState),
      node_ty st inner.id = some (Ty.tyInfer v) →
      lookupA st.scratch.method_map (MethodCall.expr eid) = some m →
      eid ∉ inner.ids →
      visit_expr s (.unary eid uop inner) st = some st2 →
      fix_scalar_builtin_expr s (.unary eid uop inner) st = some st ∧
      lookupA st2.scratch.method_map (MethodCall.expr eid) = none ∧
      lookupA st2.tables.method_map (MethodCall.expr eid) =
        some ⟨m.def_id, resolverResultTy s m.ty, resolverResultSubsts s m.substs⟩) ∧
    (∀ (eid : Nat) (op : BinOpKind) (lhs rhs : Expr) (tl tr : Ty)
       (m : MethodCallee) (st2 : WbState),
      node_ty st lhs.id = some tl → node_ty st rhs.id = some tr →
      (tl = Ty.tyInfer v ∨ tr = Ty.tyInfer v) →
      lookupA st.scratch.method_map (MethodCall.expr eid) = some m →
      eid ∉ lhs.ids → eid ∉ rhs.ids →
      visit_expr s (.binary eid op lhs rhs) st = some st2 →
      fix_scalar_builtin_expr s (.binary eid op lhs rhs) st = some st ∧
      lookupA st2.scratch.method_map (MethodCall.expr eid) = none ∧
      lookupA st2.tables.method_map (MethodCall.expr eid) =
        some ⟨m.def_id, resolverResultTy s m.ty, resolverResultSubsts s m.substs⟩) ∧
    (∀ (eid : Nat) (op : BinOpKind) (lhs rhs : Expr) (tl tr : Ty)
       (m : MethodCallee) (st2 : WbState),
      node_ty st lhs.id = some tl → node_ty st rhs.id = some tr →
      (tl = Ty.tyInfer v ∨ tr = Ty.tyInfer v) →
      lookupA st.scratch.method_map (MethodCall.expr eid) = some m →
      eid ∉ lhs.ids → eid ∉ rhs.ids →
      visit_expr s (.assignOp eid op lhs rhs) st = some st2 →
      fix_scalar_builtin_expr s (.assignOp eid op lhs rhs) st = some st ∧
      lookupA st2.scratch.method_map (MethodCall.expr eid) = none ∧
      lookupA st2.tables.method_map (MethodCall.expr eid) =
        some ⟨m.def_id, resolverResultTy s m.ty, resolverResultSubsts s m.substs⟩) := by
  refine ⟨?_, ?_, ?_⟩
  · intro eid uop inner m st2 hin hm hnin h
    have hfix : fix_scalar_builtin_expr s (.unary eid uop inner) st = some st := by
      cases uop with
      | unDeref => rfl
      | unNeg =>
        simp only [fix_scalar_builtin_expr]
        rw [hin]
        simp only []
        rw [resolve_type_vars_if_possible_unsolved s v hv]
        simp [Ty.is_scalar]
      | unNot =>
        simp only [fix_scalar_builtin_expr]
        rw [hin]
        simp only []
        rw [resolve_type_vars_if_possible_unsolved s v hv]
        simp [Ty.is_scalar]
    refine ⟨hfix, ?_⟩
    simp only [visit_expr] at h
    cases hp : visit_expr_pre s (.unary eid uop inner) st with
    | none => rw [hp] at h; exact absurd h (by simp)
    | some stP =>
      rw [hp] at h
      simp only [] at h
      have hP := visit_expr_pre_method_transfer s (.unary eid uop inner)
        st stP m hfix hm hp
      have EI := visit_expr_effect s inner stP st2 h
      refine ⟨EI.2.2.1 _ hP.1, ?_⟩
      rw [(EI.2.2.2.2.2.1 (MethodCall.expr eid) hnin).2]
      exact hP.2
  · intro eid op lhs rhs tl tr m st2 hl hr hun hm hninl hninr h
    have hfix : fix_scalar_builtin_expr s (.binary eid op lhs rhs) st =
        some st := by
      simp only [fix_scalar_builtin_expr, fix_scalar_binop]
      rw [hl, hr]
      simp only []
      rcases hun with he | he
      · subst he
        rw [resolve_type_vars_if_possible_unsolved s v hv]
        simp [Ty.is_scalar]
      · subst he
        rw [resolve_type_vars_if_possible_unsolved s v hv]
        simp [Ty.is_scalar]
    refine ⟨hfix, ?_⟩
    simp only [visit_expr] at h
    cases hp : visit_expr_pre s (.binary eid op lhs rhs) st with
    | none => rw [hp] at h; exact absurd h (by simp)
    | some stP =>
      rw [hp] at h
      simp only [] at h
      cases hL : visit_expr s lhs stP with
      | none => rw [hL] at h; exact absurd h (by simp)
      | some stL =>
        rw [hL] at h
        simp only [] at h
        have hP := visit_expr_pre_method_transfer s (.binary eid op lhs rhs)
          st stP m hfix hm hp
        have EL := visit_expr_effect s lhs stP stL hL
        have ER := visit_expr_effect s rhs stL st2 h
        refine ⟨ER.2.2.1 _ (EL.2.2.1 _ hP.1), ?_⟩
        rw [(ER.2.2.2.2.2.1 (MethodCall.expr eid) hninr).2,
          (EL.2.2.2.2.2.1 (MethodCall.expr eid) hninl).2]
        exact hP.2
  · intro eid op lhs rhs tl tr m st2 hl hr hun hm hninl hninr h
    have hfix : fix_scalar_builtin_expr s (.assignOp eid op lhs rhs) st =
        some st := by
      simp only [fix_scalar_builtin_expr, fix_scalar_binop]
      rw [hl, hr]
      simp only []
      rcases hun with he | he
      · subst he
        rw [resolve_type_vars_if_possible_unsolved s v hv]
        simp [Ty.is_scalar]
      · subst he
        rw [resolve_type_vars_if_possible_unsolved s v hv]
        simp [Ty.is_scalar]
    refine ⟨hfix, ?_⟩
    simp only [visit_expr] at h
    cases hp : visit_expr_pre s (.assignOp eid op lhs rhs) st with
    | none => rw [hp] at h; exact absurd h (by simp)
    | some stP =>
      rw [hp] at h
      simp only [] at h
      cases hL : visit_expr s lhs stP with
      | none => rw [hL] at h; exact absurd h (by simp)
      | some stL =>
        rw [hL] at h
        simp only [] at h
        have hP := visit_expr_pre_method_transfer s (.assignOp eid op lhs rhs)
          st stP m hfix hm hp
        have EL := visit_expr_effect s lhs stP stL hL
        have ER := visit_expr_effect s rhs stL st2 h
        refine ⟨ER.2.2.1 _ (EL.2.2.1 _ hP.1), ?_⟩
        rw [(ER.2.2.2.2.2.1 (MethodCall.expr eid) hninr).2,
          (EL.2.2.2.2.2.1 (MethodCall.expr eid) hninl).2]
        exact hP.2

/-- Witness for C10: with the left operand's type an unsolved variable, the
`a + b` method entry survives the scalar rule and lands, folded, in the
final table. -/
theorem c10_unresolved_operand_method_kept_witness :
    lookupA exInfer.tySol 0 = none ∧
    node_ty c10St 1 = some (Ty.tyInfer 0) ∧
    node_ty c10St 2 = some Ty.tyInt ∧
    lookupA c10St.scratch.method_map (MethodCall.expr 10) =
      some ⟨99, Ty.tyInt, []⟩ ∧
    visit_expr exInfer (.binary 10 BinOpKind.biAdd (.lit 1) (.lit 2)) c10St =
      some c10Out ∧
    (fix_scalar_builtin_expr exInfer
        (.binary 10 BinOpKind.biAdd (.lit 1) (.lit 2)) c10St = some c10St ∧
     lookupA c10Out.scratch.method_map (MethodCall.expr 10) = none ∧
     lookupA c10Out.tables.method_map (MethodCall.expr 10) =
       some ⟨99, resolverResultTy exInfer Ty.tyInt,
         resolverResultSubsts exInfer []⟩) := by
  refine ⟨by decide, by decide, by decide, by decide, by decide, ?_⟩
  exact (c10_unresolved_operand_method_kept exInfer c10St 0 (by decide)).2.1
    10 BinOpKind.biAdd (Expr.lit 1) (Expr.lit 2) (Ty.tyInfer 0) Ty.tyInt
    ⟨99, Ty.tyInt, []⟩ c10Out (by decide) (by decide) (Or.inl rfl) (by decide)
    (by decide) (by decide) (by decide)

end Writeback
